import Mathlib

/-!
Verification development for the bulk import pipeline of the gpuinfo
repository (`scripts/import-data.ts`).  The TypeScript functions are
shallowly embedded as Lean definitions: arrays become lists, JavaScript
numbers used as integers become `Nat`/`Int`, decimal values become `Rat`,
`null`/`undefined` become `Option`, and the asynchronous streaming /
concurrency machinery is modelled by explicit state passing (see the
comments at each definition).
-/

namespace GpuInfo

/-! ### Configuration constants (import-data.ts, lines 32-34) -/

/-- Devices per batch (`DEVICE_BATCH_SIZE = 100`). -/
def DEVICE_BATCH_SIZE : Nat := 100

/-- Rows per INSERT (`INSERT_BATCH_SIZE = 100`). -/
def INSERT_BATCH_SIZE : Nat := 100

/-- Parallel batch processing limit (`CONCURRENCY = 3`). -/
def CONCURRENCY : Nat := 3

/-! ### `chunk` (import-data.ts, lines 128-134)

The TypeScript loop is

    for (let i = 0; i < arr.length; i += size) chunks.push(arr.slice(i, i + size))

`chunkFuel` is the direct embedding of this loop: each iteration handles the
case `i < arr.length` by emitting `arr.slice(i, i + size)` (here
`arr.take size` of the remaining suffix) and advancing `i` by `size` (here
dropping `size` elements).  The `fuel` argument makes the possible
non-termination of the loop observable: when `size = 0` the loop variable
never advances and the loop runs forever on a non-empty array, which the
embedding renders as `none` for every fuel value. -/

def chunkFuel (fuel : Nat) (arr : List α) (size : Nat) : Option (List (List α)) :=
  match fuel with
  | 0 => if arr.isEmpty then some [] else none
  | fuel' + 1 =>
    if arr.isEmpty then some []
    else
      match chunkFuel fuel' (arr.drop size) size with
      | some rest => some (arr.take size :: rest)
      | none => none

/-- The loop of `chunk` terminates on a given input when some fuel suffices. -/
def chunkTerminates (arr : List α) (size : Nat) : Prop :=
  ∃ fuel, (chunkFuel fuel arr size).isSome

/-- Total companion of the `chunk` loop: the loop run with fuel
`arr.length`, which suffices whenever the loop terminates, i.e. for every
`size ≥ 1` (`chunkFuel_eq_chunk` below); at `size = 0`, where the
TypeScript loop diverges on non-empty input, it returns `[]`. -/
def chunk (arr : List α) (size : Nat) : List (List α) :=
  (chunkFuel arr.length arr size).getD []

theorem chunkFuel_stable {size : Nat} (hs : 0 < size) :
    ∀ fuel (arr : List α), arr.length ≤ fuel →
      chunkFuel fuel arr size = chunkFuel arr.length arr size := by
  intro fuel
  induction fuel using Nat.strong_induction_on with
  | _ fuel ih =>
    match fuel with
    | 0 =>
      intro arr hlen
      have harr : arr = [] := List.eq_nil_of_length_eq_zero (Nat.le_zero.mp hlen)
      subst harr; rfl
    | n + 1 =>
      intro arr hlen
      by_cases harr : arr = []
      · subst harr; simp [chunkFuel]
      · have hne : ¬ arr.isEmpty = true := by simpa [List.isEmpty_iff] using harr
        have hpos : 0 < arr.length := List.length_pos.mpr harr
        obtain ⟨m, hm⟩ : ∃ m, arr.length = m + 1 := ⟨arr.length - 1, by omega⟩
        rw [hm]
        show (if arr.isEmpty then some []
            else match chunkFuel n (arr.drop size) size with
              | some rest => some (arr.take size :: rest)
              | none => none)
          = (if arr.isEmpty then some []
            else match chunkFuel m (arr.drop size) size with
              | some rest => some (arr.take size :: rest)
              | none => none)
        rw [if_neg hne, if_neg hne]
        have hd : (arr.drop size).length ≤ n := by
          simp only [List.length_drop]; omega
        have hdm : (arr.drop size).length ≤ m := by
          simp only [List.length_drop]; omega
        rw [ih n (by omega) (arr.drop size) hd,
          ih m (by omega) (arr.drop size) hdm]

theorem chunkFuel_isSome {size : Nat} (hs : 0 < size) :
    ∀ (arr : List α), (chunkFuel arr.length arr size).isSome := by
  have key : ∀ n (arr : List α), arr.length ≤ n →
      (chunkFuel arr.length arr size).isSome := by
    intro n
    induction n with
    | zero =>
      intro arr hlen
      have harr : arr = [] := List.eq_nil_of_length_eq_zero (Nat.le_zero.mp hlen)
      subst harr; rfl
    | succ n ih =>
      intro arr hlen
      by_cases harr : arr = []
      · subst harr; rfl
      · have hne : ¬ arr.isEmpty = true := by simpa [List.isEmpty_iff] using harr
        have hpos : 0 < arr.length := List.length_pos.mpr harr
        obtain ⟨m, hm⟩ : ∃ m, arr.length = m + 1 := ⟨arr.length - 1, by omega⟩
        rw [hm]
        show (if arr.isEmpty then some []
            else match chunkFuel m (arr.drop size) size with
              | some rest => some (arr.take size :: rest)
              | none => none).isSome
        rw [if_neg hne]
        have hstab : chunkFuel m (arr.drop size) size
            = chunkFuel (arr.drop size).length (arr.drop size) size :=
          chunkFuel_stable hs m (arr.drop size)
            (by simp only [List.length_drop]; omega)
        rw [hstab]
        have hrec := ih (arr.drop size) (by simp only [List.length_drop]; omega)
        obtain ⟨r, hr⟩ := Option.isSome_iff_exists.mp hrec
        rw [hr]
        rfl
  intro arr
  exact key arr.length arr le_rfl

theorem chunk_nil (size : Nat) : chunk ([] : List α) size = [] := rfl

theorem chunk_cons {arr : List α} (h1 : arr ≠ []) {size : Nat} (h2 : 0 < size) :
    chunk arr size = arr.take size :: chunk (arr.drop size) size := by
  unfold chunk
  have hne : ¬ arr.isEmpty = true := by simpa [List.isEmpty_iff] using h1
  have hpos : 0 < arr.length := List.length_pos.mpr h1
  obtain ⟨m, hm⟩ : ∃ m, arr.length = m + 1 := ⟨arr.length - 1, by omega⟩
  rw [hm]
  show (if arr.isEmpty then some []
      else match chunkFuel m (arr.drop size) size with
        | some rest => some (arr.take size :: rest)
        | none => none).getD []
    = arr.take size
        :: (chunkFuel (arr.drop size).length (arr.drop size) size).getD []
  rw [if_neg hne]
  have hstab : chunkFuel m (arr.drop size) size
      = chunkFuel (arr.drop size).length (arr.drop size) size :=
    chunkFuel_stable h2 m (arr.drop size)
      (by simp only [List.length_drop]; omega)
  rw [hstab]
  obtain ⟨r, hr⟩ :=
    Option.isSome_iff_exists.mp (chunkFuel_isSome h2 (arr.drop size))
  rw [hr]
  rfl

theorem chunkFuel_eq_chunk {size : Nat} (hs : 0 < size) :
    ∀ fuel (arr : List α), arr.length ≤ fuel →
      chunkFuel fuel arr size = some (chunk arr size) := by
  intro fuel arr hlen
  rw [chunkFuel_stable hs fuel arr hlen]
  obtain ⟨r, hr⟩ := Option.isSome_iff_exists.mp (chunkFuel_isSome hs arr)
  unfold chunk
  rw [hr]
  rfl

theorem chunkFuel_zero_stuck :
    ∀ fuel (arr : List α), arr ≠ [] → chunkFuel fuel arr 0 = none := by
  intro fuel
  induction fuel with
  | zero =>
    intro arr h
    have : ¬ arr.isEmpty := by simpa [List.isEmpty_iff] using h
    simp [chunkFuel, this]
  | succ n ih =>
    intro arr h
    have : ¬ arr.isEmpty := by simpa [List.isEmpty_iff] using h
    simp [chunkFuel, this, ih arr h]

theorem chunk_join {size : Nat} (hs : 0 < size) :
    ∀ (arr : List α), (chunk arr size).flatten = arr := by
  have key : ∀ n (arr : List α), arr.length ≤ n → (chunk arr size).flatten = arr := by
    intro n
    induction n with
    | zero =>
      intro arr hlen
      have : arr = [] := List.eq_nil_of_length_eq_zero (Nat.le_zero.mp hlen)
      subst this; simp [chunk_nil]
    | succ n ih =>
      intro arr hlen
      by_cases harr : arr = []
      · subst harr; simp [chunk_nil]
      · rw [chunk_cons harr hs]
        have hlen' : (arr.drop size).length ≤ n := by
          have : 0 < arr.length := List.length_pos.mpr harr
          simp only [List.length_drop]
          omega
        simp [List.flatten, ih (arr.drop size) hlen', List.take_append_drop]
  intro arr
  exact key arr.length arr le_rfl

theorem chunk_eq_nil_iff {size : Nat} (hs : 0 < size) {arr : List α} :
    chunk arr size = [] ↔ arr = [] := by
  constructor
  · intro h
    by_contra harr
    rw [chunk_cons harr hs] at h
    exact List.cons_ne_nil _ _ h
  · intro h; subst h; exact chunk_nil size

theorem chunk_dropLast_length {size : Nat} (hs : 0 < size) :
    ∀ (arr : List α), ∀ g ∈ (chunk arr size).dropLast, g.length = size := by
  have key : ∀ n (arr : List α), arr.length ≤ n →
      ∀ g ∈ (chunk arr size).dropLast, g.length = size := by
    intro n
    induction n with
    | zero =>
      intro arr hlen g hg
      have : arr = [] := List.eq_nil_of_length_eq_zero (Nat.le_zero.mp hlen)
      subst this; simp [chunk_nil] at hg
    | succ n ih =>
      intro arr hlen g hg
      by_cases harr : arr = []
      · subst harr; simp [chunk_nil] at hg
      · rw [chunk_cons harr hs] at hg
        by_cases hrest : chunk (arr.drop size) size = []
        · rw [hrest] at hg
          simp at hg
        · rw [List.dropLast_cons_of_ne_nil hrest] at hg
          have hlen' : (arr.drop size).length ≤ n := by
            have : 0 < arr.length := List.length_pos.mpr harr
            simp only [List.length_drop]
            omega
          rcases List.mem_cons.mp hg with hgt | hgr
          · subst hgt
            have hdrop : arr.drop size ≠ [] := by
              intro hd
              exact hrest (by rw [hd, chunk_nil])
            have : size < arr.length := by
              by_contra hge
              push_neg at hge
              exact hdrop (List.drop_eq_nil_of_le hge)
            simp [List.length_take]
            omega
          · exact ih (arr.drop size) hlen' g hgr
  intro arr
  exact key arr.length arr le_rfl

theorem chunk_length_le {size : Nat} (hs : 0 < size) :
    ∀ (arr : List α), ∀ g ∈ chunk arr size, g.length ≤ size := by
  have key : ∀ n (arr : List α), arr.length ≤ n →
      ∀ g ∈ chunk arr size, g.length ≤ size := by
    intro n
    induction n with
    | zero =>
      intro arr hlen g hg
      have : arr = [] := List.eq_nil_of_length_eq_zero (Nat.le_zero.mp hlen)
      subst this; simp [chunk_nil] at hg
    | succ n ih =>
      intro arr hlen g hg
      by_cases harr : arr = []
      · subst harr; simp [chunk_nil] at hg
      · rw [chunk_cons harr hs] at hg
        rcases List.mem_cons.mp hg with hgt | hgr
        · subst hgt
          simp [List.length_take]
        · have hlen' : (arr.drop size).length ≤ n := by
            have : 0 < arr.length := List.length_pos.mpr harr
            simp only [List.length_drop]
            omega
          exact ih (arr.drop size) hlen' g hgr
  intro arr
  exact key arr.length arr le_rfl

/-! ### Claims C2 and C9: `chunk` -/

/-- Claim C9 (counterexample).  The claim states that `chunk` terminates for
every input array and every size value.  On the source code this is false:
with `size = 0` the loop index `i += size` never advances, so
`chunk([0], 0)` loops forever — no amount of fuel makes the embedded loop
produce a result. -/
theorem chunk_size_zero_diverges : ¬ chunkTerminates ([0] : List Nat) 0 := by
  rintro ⟨fuel, h⟩
  rw [chunkFuel_zero_stuck fuel [0] (by simp)] at h
  simp at h

/-- Claim C9 (amended): `chunk` is pure and total for every input array and
every size `≥ 1`: the loop terminates (some fuel suffices) and yields the
value computed by the total companion `chunk`. -/
theorem chunk_total_of_pos_size {α : Type} (arr : List α) (size : Nat)
    (hs : 0 < size) : chunkTerminates arr size := by
  exact ⟨arr.length, by rw [chunkFuel_eq_chunk hs arr.length arr le_rfl]; rfl⟩

/-- Witness for `chunk_total_of_pos_size` at a concrete input. -/
theorem chunk_total_of_pos_size_witness :
    0 < 2 ∧ chunkTerminates ([5, 6, 7] : List Nat) 2 :=
  ⟨by decide, chunk_total_of_pos_size [5, 6, 7] 2 (by decide)⟩

/-- Claim C2 (counterexample).  The claim quantifies over every size `n`,
but at `n = 0` the TypeScript loop diverges on any non-empty array: no
groups are ever returned (for no fuel does the embedded loop produce a
value), so in particular nothing concatenates back to `[1, 2]`; even the
total companion, which patches the divergence with `[]`, fails the
concatenation property there. -/
theorem chunk_size_zero_no_groups :
    ¬ chunkTerminates ([1, 2] : List Nat) 0 ∧
      (chunk ([1, 2] : List Nat) 0).flatten ≠ [1, 2] := by
  constructor
  · rintro ⟨fuel, h⟩
    rw [chunkFuel_zero_stuck fuel [1, 2] (by simp)] at h
    simp at h
  · decide

/-- Claim C2 (amended): for every array and every size `n ≥ 1` the loop
terminates with the groups computed by `chunk`, the concatenation of the
groups reproduces the input exactly, every group except possibly the last
has length exactly `n`, and `chunk [] n = []` (the latter holds for every
`n`, including `0`). -/
theorem chunk_spec {α : Type} (arr : List α) (size : Nat) (hs : 0 < size) :
    chunkFuel arr.length arr size = some (chunk arr size) ∧
      (chunk arr size).flatten = arr ∧
      (∀ g ∈ (chunk arr size).dropLast, g.length = size) ∧
      chunk ([] : List α) size = [] := by
  exact ⟨chunkFuel_eq_chunk hs arr.length arr le_rfl, chunk_join hs arr,
    chunk_dropLast_length hs arr, chunk_nil size⟩

/-- Witness for `chunk_spec` at a concrete input. -/
theorem chunk_spec_witness :
    0 < 2 ∧
      (chunkFuel 5 [1, 2, 3, 4, 5] 2 = some (chunk [1, 2, 3, 4, 5] 2) ∧
        (chunk [1, 2, 3, 4, 5] 2).flatten = [1, 2, 3, 4, 5] ∧
        (∀ g ∈ (chunk [1, 2, 3, 4, 5] 2).dropLast, g.length = 2) ∧
        chunk ([] : List Nat) 2 = []) :=
  ⟨by decide, chunk_spec [1, 2, 3, 4, 5] 2 (by decide)⟩

/-! ### `sanitizeString` (import-data.ts, lines 56-59)

    function sanitizeString(str) {
      if (!str) return ''
      return str.replace(/[\x00-\x08\x0B\x0C\x0E-\x1F]/g, '').trim()
    }

Strings are modelled as `List Char`.  The removed character class is
`isStrippedControl`; `String.prototype.trim` removes the JavaScript
whitespace characters (`isJsWhitespace`) from both ends.  `null`/`undefined`
input is `none`; the `!str` guard is also true for the empty string. -/

def isStrippedControl (c : Char) : Bool :=
  c.toNat ≤ 0x08 || c.toNat = 0x0B || c.toNat = 0x0C ||
    (0x0E ≤ c.toNat && c.toNat ≤ 0x1F)

def isJsWhitespace (c : Char) : Bool :=
  c.toNat = 0x09 || c.toNat = 0x0A || c.toNat = 0x0B || c.toNat = 0x0C ||
    c.toNat = 0x0D || c.toNat = 0x20 || c.toNat = 0xA0 || c.toNat = 0x1680 ||
    (0x2000 ≤ c.toNat && c.toNat ≤ 0x200A) || c.toNat = 0x2028 ||
    c.toNat = 0x2029 || c.toNat = 0x202F || c.toNat = 0x205F ||
    c.toNat = 0x3000 || c.toNat = 0xFEFF

/-- The global `replace` with the control-character class. -/
def stripControls (s : List Char) : List Char :=
  s.filter (fun c => !isStrippedControl c)

/-- `String.prototype.trim`: whitespace removed from both ends. -/
def trimEnds (s : List Char) : List Char :=
  ((s.dropWhile isJsWhitespace).reverse.dropWhile isJsWhitespace).reverse

def sanitizeString (str : Option (List Char)) : List Char :=
  match str with
  | none => []
  | some s => if s.isEmpty then [] else trimEnds (stripControls s)

theorem dropWhile_idem {α : Type} (p : α → Bool) :
    ∀ l : List α, (l.dropWhile p).dropWhile p = l.dropWhile p := by
  intro l
  induction l with
  | nil => rfl
  | cons a t ih =>
    by_cases hp : p a = true
    · simp [List.dropWhile_cons, hp, ih]
    · simp [List.dropWhile_cons, hp]

theorem dropWhile_append_singleton {α : Type} (p : α → Bool) {a : α}
    (ha : p a = false) :
    ∀ l : List α, (l ++ [a]).dropWhile p = l.dropWhile p ++ [a] := by
  intro l
  induction l with
  | nil => simp [List.dropWhile, ha]
  | cons b t ih =>
    by_cases hb : p b = true
    · simp [List.dropWhile_cons, hb, ih]
    · simp [List.dropWhile_cons, hb]

theorem mem_of_mem_dropWhile {α : Type} {p : α → Bool} {c : α} :
    ∀ {l : List α}, c ∈ l.dropWhile p → c ∈ l := by
  intro l
  induction l with
  | nil => intro h; simp at h
  | cons a t ih =>
    intro h
    by_cases hp : p a = true
    · rw [List.dropWhile_cons, if_pos hp] at h
      exact List.mem_cons_of_mem a (ih h)
    · rw [List.dropWhile_cons, if_neg hp] at h
      exact h

theorem dropWhile_head_false {α : Type} {p : α → Bool} :
    ∀ {l : List α} {a : α} {t : List α}, l.dropWhile p = a :: t → p a = false := by
  intro l
  induction l with
  | nil => intro a t h; simp [List.dropWhile] at h
  | cons b u ih =>
    intro a t h
    by_cases hb : p b = true
    · rw [List.dropWhile_cons, if_pos hb] at h
      exact ih h
    · rw [List.dropWhile_cons, if_neg hb] at h
      cases h
      exact Bool.eq_false_iff.mpr hb

theorem mem_trimEnds {c : Char} {s : List Char} (h : c ∈ trimEnds s) : c ∈ s := by
  unfold trimEnds at h
  rw [List.mem_reverse] at h
  have h1 := mem_of_mem_dropWhile h
  rw [List.mem_reverse] at h1
  exact mem_of_mem_dropWhile h1

/-- A list with no whitespace head after the initial `dropWhile` keeps a
whitespace-free head even after its tail-side whitespace is removed. -/
theorem trimEnds_dropWhile (s : List Char) :
    (trimEnds s).dropWhile isJsWhitespace = trimEnds s := by
  unfold trimEnds
  cases hm : s.dropWhile isJsWhitespace with
  | nil => simp
  | cons a t =>
    have hpa : isJsWhitespace a = false := dropWhile_head_false hm
    have : (a :: t).reverse = t.reverse ++ [a] := by simp
    rw [this, dropWhile_append_singleton isJsWhitespace hpa]
    simp [List.dropWhile_cons, hpa]

theorem trimEnds_reverse_dropWhile (s : List Char) :
    (trimEnds s).reverse.dropWhile isJsWhitespace = (trimEnds s).reverse := by
  unfold trimEnds
  rw [List.reverse_reverse]
  exact dropWhile_idem isJsWhitespace _

theorem trimEnds_of_trimmed {s : List Char}
    (h1 : s.dropWhile isJsWhitespace = s)
    (h2 : s.reverse.dropWhile isJsWhitespace = s.reverse) :
    trimEnds s = s := by
  unfold trimEnds
  rw [h1, h2, List.reverse_reverse]

theorem mem_stripControls_clean {c : Char} {s : List Char}
    (h : c ∈ stripControls s) : isStrippedControl c = false := by
  unfold stripControls at h
  have := (List.mem_filter.mp h).2
  simpa using this

theorem stripControls_of_clean {s : List Char}
    (h : ∀ c ∈ s, isStrippedControl c = false) : stripControls s = s := by
  unfold stripControls
  rw [List.filter_eq_self]
  intro a ha
  simp [h a ha]

/-! ### Claim C10: `sanitizeString` is idempotent -/

theorem sanitizeString_clean (str : Option (List Char)) :
    ∀ c ∈ sanitizeString str, isStrippedControl c = false := by
  intro c hc
  match str with
  | none => simp [sanitizeString] at hc
  | some s =>
    simp only [sanitizeString] at hc
    by_cases hs : s.isEmpty
    · simp [hs] at hc
    · rw [if_neg hs] at hc
      exact mem_stripControls_clean (mem_trimEnds hc)

theorem sanitizeString_no_ws_ends (str : Option (List Char)) :
    (sanitizeString str).dropWhile isJsWhitespace = sanitizeString str ∧
      (sanitizeString str).reverse.dropWhile isJsWhitespace
        = (sanitizeString str).reverse := by
  match str with
  | none => simp [sanitizeString, List.dropWhile]
  | some s =>
    simp only [sanitizeString]
    by_cases hs : s.isEmpty
    · simp [hs, List.dropWhile]
    · rw [if_neg hs]
      exact ⟨trimEnds_dropWhile _, trimEnds_reverse_dropWhile _⟩

/-- Claim C10: `sanitizeString` is idempotent — its output is a fixed point:
it contains none of the stripped control characters and no leading or
trailing (JavaScript) whitespace, so sanitizing a second time returns it
unchanged. -/
theorem sanitizeString_idempotent (str : Option (List Char)) :
    sanitizeString (some (sanitizeString str)) = sanitizeString str ∧
      (∀ c ∈ sanitizeString str, isStrippedControl c = false) ∧
      (sanitizeString str).dropWhile isJsWhitespace = sanitizeString str ∧
      (sanitizeString str).reverse.dropWhile isJsWhitespace
        = (sanitizeString str).reverse := by
  refine ⟨?_, sanitizeString_clean str, sanitizeString_no_ws_ends str⟩
  set out := sanitizeString str with hout
  show sanitizeString (some out) = out
  by_cases ho : out.isEmpty
  · have : out = [] := by simpa [List.isEmpty_iff] using ho
    simp [sanitizeString, ho, this]
  · simp only [sanitizeString]
    rw [if_neg ho]
    rw [stripControls_of_clean (sanitizeString_clean str)]
    exact trimEnds_of_trimmed (sanitizeString_no_ws_ends str).1
      (sanitizeString_no_ws_ends str).2

/-! ### `parseCoverage` (import-data.ts, lines 37-41)

    function parseCoverage(html) {
      if (!html) return 0
      const match = html.match(/>([\x5cd.]+)</)
      return match ? parseFloat(match[1]) : 0
    }

The regular expression finds the leftmost position carrying a literal `>`
followed by a non-empty run of digits/dots followed by `<`; the captured
group is that run (it is automatically maximal because `<` is not in the
character class, so no backtracking case arises).  `parseFloatModel` embeds
`parseFloat` on such runs: an integer part, optionally a dot and a
fractional part; a run with no digit before a second dot (like `"."`)
yields NaN, rendered `none`.  Numeric results are exact rationals. -/

def isDigitDot (c : Char) : Bool := c.isDigit || c = '.'

/-- Does the list start with a literal `<`? -/
def expectLt : List Char → Bool
  | c :: _ => decide (c = '<')
  | [] => false

/-- Does the regex match at the head of the list? -/
def matchHead0 (s : List Char) : Bool :=
  match s with
  | c :: rest =>
    decide (c = '>') && !(rest.takeWhile isDigitDot).isEmpty &&
      expectLt (rest.drop (rest.takeWhile isDigitDot).length)
  | [] => false

/-- Does the regex match at offset `i`? (computable form) -/
def matchAtB (s : List Char) (i : Nat) : Bool := matchHead0 (s.drop i)

/-- Does the regex match at offset `i`? (specification form: the suffix at
`i` decomposes as a literal `>`, a non-empty digits/dots run and `<`). -/
def regexMatchAt (s : List Char) (i : Nat) : Prop :=
  ∃ run post, s.drop i = '>' :: (run ++ '<' :: post) ∧ run ≠ [] ∧
    ∀ c ∈ run, isDigitDot c = true

/-- Leftmost regex match: the captured digits/dots run, if any. -/
def findCoverageMatch : List Char → Option (List Char)
  | [] => none
  | c :: rest =>
    if matchHead0 (c :: rest) then some (rest.takeWhile isDigitDot)
    else findCoverageMatch rest

/-- Decimal value of a digit list. -/
def digitsVal (l : List Char) : Nat :=
  l.foldl (fun a c => a * 10 + (c.toNat - 48)) 0

/-- `parseFloat` on a digits/dots run; `none` models `NaN`. -/
def parseFloatModel (s : List Char) : Option ℚ :=
  let ip := s.takeWhile Char.isDigit
  match s.drop ip.length with
  | '.' :: rest =>
    let fp := rest.takeWhile Char.isDigit
    if ip.isEmpty && fp.isEmpty then none
    else some ((digitsVal ip : ℚ) + (digitsVal fp : ℚ) / (10 : ℚ) ^ fp.length)
  | _ => if ip.isEmpty then none else some ((digitsVal ip : ℚ))

def parseCoverage (html : Option (List Char)) : Option ℚ :=
  match html with
  | none => some 0
  | some s =>
    if s.isEmpty then some 0
    else
      match findCoverageMatch s with
      | some run => parseFloatModel run
      | none => some 0

theorem takeWhile_append_drop_self {α : Type} (p : α → Bool) :
    ∀ l : List α, l.takeWhile p ++ l.drop (l.takeWhile p).length = l := by
  intro l
  induction l with
  | nil => rfl
  | cons a t ih =>
    by_cases hp : p a = true
    · simp only [List.takeWhile_cons, hp, ite_true, List.length_cons,
        List.drop_succ_cons, List.cons_append, List.cons.injEq, true_and]
      exact ih
    · simp [List.takeWhile_cons, hp]

theorem takeWhile_append_of_all {α : Type} (p : α → Bool) {c : α}
    (hc : p c = false) (post : List α) :
    ∀ run : List α, (∀ a ∈ run, p a = true) →
      (run ++ c :: post).takeWhile p = run := by
  intro run
  induction run with
  | nil => intro _; simp [List.takeWhile_cons, hc]
  | cons b t ih =>
    intro hall
    have hb : p b = true := hall b (List.mem_cons_self b t)
    simp only [List.cons_append, List.takeWhile_cons, hb, ite_true,
      List.cons.injEq, true_and]
    exact ih (fun a ha => hall a (List.mem_cons_of_mem b ha))

theorem isEmpty_false_iff {α : Type} {l : List α} : l.isEmpty = false ↔ l ≠ [] := by
  cases l <;> simp

theorem matchAtB_succ_cons (c : Char) (rest : List Char) (j : Nat) :
    matchAtB (c :: rest) (j + 1) = matchAtB rest j := rfl

theorem matchHead0_iff (t : List Char) :
    matchHead0 t = true ↔
      ∃ run post, t = '>' :: (run ++ '<' :: post) ∧ run ≠ [] ∧
        ∀ c ∈ run, isDigitDot c = true := by
  cases t with
  | nil => simp [matchHead0]
  | cons c rest =>
    simp only [matchHead0, Bool.and_eq_true, decide_eq_true_eq,
      Bool.not_eq_true']
    constructor
    · rintro ⟨⟨hc, hne⟩, hlt⟩
      subst hc
      obtain ⟨post, hpost⟩ : ∃ post,
          rest.drop (rest.takeWhile isDigitDot).length = '<' :: post := by
        cases hd : rest.drop (rest.takeWhile isDigitDot).length with
        | nil => rw [hd] at hlt; simp [expectLt] at hlt
        | cons d u =>
          rw [hd] at hlt
          simp only [expectLt, decide_eq_true_eq] at hlt
          exact ⟨u, by rw [hlt]⟩
      have hsplit : rest.takeWhile isDigitDot ++ '<' :: post = rest := by
        have := takeWhile_append_drop_self isDigitDot rest
        rw [hpost] at this
        exact this
      refine ⟨rest.takeWhile isDigitDot, post, ?_, isEmpty_false_iff.mp hne, ?_⟩
      · exact congrArg (List.cons '>') hsplit.symm
      · intro a ha
        exact List.mem_takeWhile_imp ha
    · rintro ⟨run, post, heq, hne, hall⟩
      have hc : c = '>' := by
        injection heq with h1 _
      have hrest : rest = run ++ '<' :: post := by
        injection heq with _ h2
      have htw : rest.takeWhile isDigitDot = run := by
        rw [hrest]
        exact takeWhile_append_of_all isDigitDot (by decide) post run hall
      refine ⟨⟨hc, by rw [htw]; exact isEmpty_false_iff.mpr hne⟩, ?_⟩
      rw [htw, hrest, List.drop_left]
      simp [expectLt]

theorem matchAtB_iff (s : List Char) (i : Nat) :
    matchAtB s i = true ↔ regexMatchAt s i := by
  unfold matchAtB regexMatchAt
  exact matchHead0_iff (s.drop i)

theorem findCoverageMatch_eq_none_iff (s : List Char) :
    findCoverageMatch s = none ↔ ∀ i, matchAtB s i = false := by
  induction s with
  | nil =>
    constructor
    · intro _ i
      rw [matchAtB, List.drop_nil]
      rfl
    · intro _
      rfl
  | cons c rest ih =>
    simp only [findCoverageMatch]
    by_cases hm : matchHead0 (c :: rest) = true
    · rw [if_pos hm]
      constructor
      · intro h; exact absurd h (by simp)
      · intro hall
        have h0 := hall 0
        rw [matchAtB, List.drop_zero, hm] at h0
        exact absurd h0 (by simp)
    · rw [if_neg hm, ih]
      constructor
      · intro hall i
        cases i with
        | zero =>
          rw [matchAtB, List.drop_zero]
          exact Bool.eq_false_iff.mpr hm
        | succ j =>
          rw [matchAtB_succ_cons]
          exact hall j
      · intro hall j
        have := hall (j + 1)
        rwa [matchAtB_succ_cons] at this

theorem findCoverageMatch_eq_of_least (s : List Char) :
    ∀ i, matchAtB s i = true → (∀ j, j < i → matchAtB s j = false) →
      findCoverageMatch s = some ((s.drop (i + 1)).takeWhile isDigitDot) := by
  induction s with
  | nil =>
    intro i hi _
    exfalso
    rw [matchAtB, List.drop_nil] at hi
    simp [matchHead0] at hi
  | cons c rest ih =>
    intro i hi hleast
    cases i with
    | zero =>
      have hm : matchHead0 (c :: rest) = true := by
        rwa [matchAtB, List.drop_zero] at hi
      simp only [findCoverageMatch, if_pos hm]
      rw [List.drop_succ_cons, List.drop_zero]
    | succ j =>
      have h0 : matchHead0 (c :: rest) = false := by
        have := hleast 0 (Nat.succ_pos j)
        rwa [matchAtB, List.drop_zero] at this
      simp only [findCoverageMatch,
        if_neg (by rw [h0]; simp : ¬ matchHead0 (c :: rest) = true)]
      have hj : matchAtB rest j = true := by
        rwa [matchAtB_succ_cons] at hi
      have hjl : ∀ k, k < j → matchAtB rest k = false := by
        intro k hk
        have := hleast (k + 1) (Nat.succ_lt_succ hk)
        rwa [matchAtB_succ_cons] at this
      rw [ih j hj hjl, List.drop_succ_cons]

/-! ### Claim C8: `parseCoverage` -/

/-- Claim C8: `parseCoverage(null) = 0`; on `"<span>73.5</span>"` it
extracts `73.5`; a string with no occurrence of the pattern
`>` digits-run `<` (in particular the empty string) yields `0`; and on the
leftmost occurrence of that pattern the returned value is `parseFloat` of
the captured run (the first number found).  The embedding is a total
function, so no input can raise. -/
theorem parseCoverage_spec :
    parseCoverage none = some 0 ∧
      parseCoverage (some ("<span>73.5</span>".data)) = some (147 / 2 : ℚ) ∧
      (∀ s : List Char, (∀ i, ¬ regexMatchAt s i) → parseCoverage (some s) = some 0) ∧
      (∀ (s : List Char) (i : Nat), regexMatchAt s i →
        (∀ j, j < i → ¬ regexMatchAt s j) →
        parseCoverage (some s)
          = parseFloatModel ((s.drop (i + 1)).takeWhile isDigitDot)) := by
  refine ⟨rfl, ?_, ?_, ?_⟩
  · have h1 : findCoverageMatch ("<span>73.5</span>".data)
        = some ('7' :: '3' :: '.' :: '5' :: []) := by decide
    have h2 : parseFloatModel ('7' :: '3' :: '.' :: '5' :: [])
        = some (((73 : Nat) : ℚ) + ((5 : Nat) : ℚ) / (10 : ℚ) ^ 1) := rfl
    simp only [parseCoverage, if_neg (by decide :
      ¬ ("<span>73.5</span>".data).isEmpty = true), h1, h2]
    norm_num
  · intro s hnone
    have hb : ∀ i, matchAtB s i = false := by
      intro i
      have := hnone i
      rw [← matchAtB_iff] at this
      exact Bool.eq_false_iff.mpr this
    have hf : findCoverageMatch s = none := (findCoverageMatch_eq_none_iff s).mpr hb
    by_cases hs : s.isEmpty
    · simp [parseCoverage, hs]
    · simp [parseCoverage, hs, hf]
  · intro s i hi hleast
    have hib : matchAtB s i = true := (matchAtB_iff s i).mpr hi
    have hlb : ∀ j, j < i → matchAtB s j = false := by
      intro j hj
      have := hleast j hj
      rw [← matchAtB_iff] at this
      exact Bool.eq_false_iff.mpr this
    have hf := findCoverageMatch_eq_of_least s i hib hlb
    have hs : ¬ s.isEmpty = true := by
      intro hemp
      have : s = [] := by simpa [List.isEmpty_iff] using hemp
      subst this
      rw [matchAtB, List.drop_nil] at hib
      simp [matchHead0] at hib
    simp [parseCoverage, hs, hf]

/-- Witness for `parseCoverage_spec`: its conditional parts applied at
concrete inputs (no match in `"hello"`; leftmost match at offset 5 in
`"<span>73.5</span>"`). -/
theorem parseCoverage_spec_witness :
    parseCoverage (some ("hello".data)) = some 0 ∧
      parseCoverage (some ("<span>73.5</span>".data))
        = parseFloatModel ((("<span>73.5</span>".data).drop 6).takeWhile isDigitDot) := by
  constructor
  · refine parseCoverage_spec.2.2.1 ("hello".data) ?_
    intro i hi
    have := (matchAtB_iff ("hello".data) i).mpr hi
    have hfalse : matchAtB ("hello".data) i = false := by
      have hnone : findCoverageMatch ("hello".data) = none := by decide
      exact (findCoverageMatch_eq_none_iff _).mp hnone i
    rw [this] at hfalse
    exact absurd hfalse (by simp)
  · refine parseCoverage_spec.2.2.2 ("<span>73.5</span>".data) 5 ?_ ?_
    · rw [← matchAtB_iff]; decide
    · intro j hj hmatch
      have hb := (matchAtB_iff _ j).mpr hmatch
      have hfalse : matchAtB ("<span>73.5</span>".data) j = false := by
        interval_cases j <;> decide
      rw [hb] at hfalse
      exact absurd hfalse (by simp)

/-! ### `streamJsonArray` (import-data.ts, lines 252-305)

The streaming reader accumulates parsed elements into `batch`; when the
batch reaches `batchSize` it dispatches `processor(currentBatch)` and keeps
the promise in the `promises` array.  Before the dispatch, if
`promises.length >= CONCURRENCY`, it pauses the pipeline, splices the first
`CONCURRENCY` promises and awaits them (resuming on success,
`reject`-ing the outer promise on failure) — but the freshly triggering
batch is still dispatched immediately after the pause.  On `end` the
remaining partial batch is dispatched and all promises awaited inside an
`async` handler with no rejection handling, then the outer promise resolves
with the total count.

The embedding processes one parsed element per `streamStep`.  Processors
are pure (`List T → Except E Unit`); `queue` holds the results of
dispatched-but-not-yet-awaited invocations.  `maxInflight` records the
largest number of dispatched, not-yet-resolved invocations at any instant
under the adversarial schedule in which an invocation resolves only when it
is awaited (any other schedule has pointwise smaller in-flight counts): at
a concurrency barrier the `CONCURRENCY` spliced promises are still
unresolved when the triggering batch's processor is dispatched.
`rejectedWith` records the first call to `reject` performed by the
mid-stream barrier `.catch(reject)`; once it fires the pipeline is never
resumed, so subsequent elements are not parsed (the step is a no-op).  On
`end`, a rejection in the awaited promises makes the `async` handler throw
before `resolve` is reached — the outer promise then never settles, which
the run renders as outcome `none`. -/

deriving instance DecidableEq for Except

def firstError {E R : Type} : List (Except E R) → Option E
  | [] => none
  | Except.error e :: _ => some e
  | Except.ok _ :: rest => firstError rest

structure StreamState (T E : Type) where
  batch : List T
  queue : List (Except E Unit)
  totalProcessed : Nat
  batchCount : Nat
  maxInflight : Nat
  rejectedWith : Option E

def initStreamState {T E : Type} : StreamState T E :=
  { batch := [], queue := [], totalProcessed := 0, batchCount := 0,
    maxInflight := 0, rejectedWith := none }

def streamStep {T E : Type} (proc : List T → Except E Unit) (batchSize : Nat)
    (s : StreamState T E) (v : T) : StreamState T E :=
  match s.rejectedWith with
  | some _ => s
  | none =>
    let b := s.batch ++ [v]
    if batchSize ≤ b.length then
      if CONCURRENCY ≤ s.queue.length then
        let q := s.queue.drop CONCURRENCY ++ [proc b]
        { batch := [], queue := q,
          totalProcessed := s.totalProcessed + b.length,
          batchCount := s.batchCount + 1,
          maxInflight := max s.maxInflight (CONCURRENCY + q.length),
          rejectedWith := firstError (s.queue.take CONCURRENCY) }
      else
        let q := s.queue ++ [proc b]
        { batch := [], queue := q,
          totalProcessed := s.totalProcessed + b.length,
          batchCount := s.batchCount + 1,
          maxInflight := max s.maxInflight q.length,
          rejectedWith := none }
    else
      { s with batch := b }

/-- The `end` handler's flush of the remaining partial batch. -/
def streamFlush {T E : Type} (proc : List T → Except E Unit)
    (s : StreamState T E) : StreamState T E :=
  if s.batch.isEmpty then s
  else
    { s with
      batch := [],
      queue := s.queue ++ [proc s.batch],
      totalProcessed := s.totalProcessed + s.batch.length,
      maxInflight := max s.maxInflight (s.queue.length + 1) }

/-- How the underlying pipeline run terminates after the given elements. -/
inductive StreamTerminal (E : Type) where
  | normalEnd
  | parseError (e : E)

/-- Outcome of one run of `streamJsonArray`: the final stream state together
with the settlement of the returned promise — `some (Except.ok n)` for a
resolution with total count `n`, `some (Except.error e)` for a rejection,
and `none` when the promise never settles. -/
def streamJsonArray {T E : Type} (proc : List T → Except E Unit)
    (batchSize : Nat) (elems : List T) (term : StreamTerminal E) :
    StreamState T E × Option (Except E Nat) :=
  let s := elems.foldl (streamStep proc batchSize) initStreamState
  match s.rejectedWith with
  | some e => (s, some (Except.error e))
  | none =>
    match term with
    | StreamTerminal.parseError e => (s, some (Except.error e))
    | StreamTerminal.normalEnd =>
      let sf := streamFlush proc s
      match firstError sf.queue with
      | some _ => (sf, none)
      | none => (sf, some (Except.ok sf.totalProcessed))

theorem streamStep_bound {T E : Type} (proc : List T → Except E Unit)
    (batchSize : Nat) (s : StreamState T E) (v : T)
    (hq : s.queue.length ≤ CONCURRENCY)
    (hm : s.maxInflight ≤ CONCURRENCY + 1) :
    (streamStep proc batchSize s v).queue.length ≤ CONCURRENCY ∧
      (streamStep proc batchSize s v).maxInflight ≤ CONCURRENCY + 1 := by
  cases hr : s.rejectedWith with
  | some e => simp only [streamStep, hr]; exact ⟨hq, hm⟩
  | none =>
    simp only [streamStep, hr, CONCURRENCY] at *
    by_cases hfull : batchSize ≤ (s.batch ++ [v]).length
    · rw [if_pos hfull]
      by_cases hc : 3 ≤ s.queue.length
      · rw [if_pos hc]
        simp only [List.length_append, List.length_drop, List.length_singleton]
        omega
      · rw [if_neg hc]
        simp only [List.length_append, List.length_singleton]
        omega
    · rw [if_neg hfull]
      exact ⟨hq, hm⟩

theorem streamFold_bound {T E : Type} (proc : List T → Except E Unit)
    (batchSize : Nat) :
    ∀ (elems : List T) (s : StreamState T E),
      s.queue.length ≤ CONCURRENCY → s.maxInflight ≤ CONCURRENCY + 1 →
      (elems.foldl (streamStep proc batchSize) s).queue.length ≤ CONCURRENCY ∧
        (elems.foldl (streamStep proc batchSize) s).maxInflight ≤ CONCURRENCY + 1 := by
  intro elems
  induction elems with
  | nil => intro s hq hm; exact ⟨hq, hm⟩
  | cons v rest ih =>
    intro s hq hm
    have hstep := streamStep_bound proc batchSize s v hq hm
    exact ih (streamStep proc batchSize s v) hstep.1 hstep.2

theorem streamFlush_bound {T E : Type} (proc : List T → Except E Unit)
    (s : StreamState T E) (hq : s.queue.length ≤ CONCURRENCY)
    (hm : s.maxInflight ≤ CONCURRENCY + 1) :
    (streamFlush proc s).maxInflight ≤ CONCURRENCY + 1 := by
  unfold streamFlush
  by_cases hb : s.batch.isEmpty
  · rw [if_pos hb]; exact hm
  · rw [if_neg hb]
    simp only [CONCURRENCY] at *
    omega

/-! ### Claim C1: in-flight processor invocations of `streamJsonArray` -/

set_option maxRecDepth 100000 in
set_option maxHeartbeats 1000000 in
/-- Claim C1 (counterexample).  With batch size 100 and concurrency 3, an
input of 301 elements drives the number of unresolved in-flight processor
invocations up to 4: when the queue already holds 3 outstanding invocations
the stream is paused, but the batch that triggered the pause is still
dispatched before the barrier completes — and the end-of-stream flush
likewise dispatches the final partial batch on top of the 3 outstanding
invocations.  The claimed bound of 3 is therefore exceeded. -/
theorem streamJsonArray_inflight_exceeds_3 :
    (streamJsonArray (fun _ => (Except.ok () : Except Nat Unit)) 100
        (List.range 301) StreamTerminal.normalEnd).1.maxInflight
      = CONCURRENCY + 1 ∧
    ¬ (streamJsonArray (fun _ => (Except.ok () : Except Nat Unit)) 100
        (List.range 301) StreamTerminal.normalEnd).1.maxInflight
      ≤ CONCURRENCY := by
  have h : (streamJsonArray (fun _ => (Except.ok () : Except Nat Unit)) 100
      (List.range 301) StreamTerminal.normalEnd).1.maxInflight = 4 := by decide
  constructor
  · exact h
  · rw [h]; decide

/-- Claim C1 (amended): for every input array, batch size, terminal event
and processor behaviour, the number of unresolved in-flight processor
invocations never exceeds `CONCURRENCY + 1` (= 4): at most `CONCURRENCY`
outstanding invocations plus the one dispatched by the element that
triggered the pause (or by the end-of-stream flush). -/
theorem streamJsonArray_inflight_bound {T E : Type}
    (proc : List T → Except E Unit) (batchSize : Nat) (elems : List T)
    (term : StreamTerminal E) :
    (streamJsonArray proc batchSize elems term).1.maxInflight
      ≤ CONCURRENCY + 1 := by
  unfold streamJsonArray
  have hfold := streamFold_bound proc batchSize elems initStreamState
    (by simp [initStreamState, CONCURRENCY]) (by simp [initStreamState])
  cases hr : (elems.foldl (streamStep proc batchSize) initStreamState).rejectedWith with
  | some e => simp only [hr]; exact hfold.2
  | none =>
    cases term with
    | parseError e => simp only [hr]; exact hfold.2
    | normalEnd =>
      have hflush := streamFlush_bound proc _ hfold.1 hfold.2
      simp only [hr]
      cases hfe : firstError (streamFlush proc
          (elems.foldl (streamStep proc batchSize) initStreamState)).queue with
      | some e => simp only [hfe]; exact hflush
      | none => simp only [hfe]; exact hflush

/-! ### Claim C7: the resolved total-processed count -/

theorem streamStep_total {T E : Type} (proc : List T → Except E Unit)
    (batchSize : Nat) (s : StreamState T E) (v : T)
    (h : (streamStep proc batchSize s v).rejectedWith = none) :
    s.rejectedWith = none ∧
      (streamStep proc batchSize s v).totalProcessed
          + (streamStep proc batchSize s v).batch.length
        = s.totalProcessed + s.batch.length + 1 := by
  cases hr : s.rejectedWith with
  | some e =>
    exfalso
    simp only [streamStep, hr] at h
    exact Option.noConfusion h
  | none =>
    refine ⟨rfl, ?_⟩
    simp only [streamStep, hr]
    by_cases hfull : batchSize ≤ (s.batch ++ [v]).length
    · rw [if_pos hfull]
      by_cases hc : CONCURRENCY ≤ s.queue.length
      · rw [if_pos hc]
        simp [List.length_append]
        omega
      · rw [if_neg hc]
        simp [List.length_append]
        omega
    · rw [if_neg hfull]
      simp [List.length_append]
      omega

theorem streamFold_total {T E : Type} (proc : List T → Except E Unit)
    (batchSize : Nat) :
    ∀ (elems : List T) (s : StreamState T E),
      (elems.foldl (streamStep proc batchSize) s).rejectedWith = none →
      s.rejectedWith = none ∧
        (elems.foldl (streamStep proc batchSize) s).totalProcessed
            + (elems.foldl (streamStep proc batchSize) s).batch.length
          = s.totalProcessed + s.batch.length + elems.length := by
  intro elems
  induction elems with
  | nil => intro s h; exact ⟨h, by simp⟩
  | cons v rest ih =>
    intro s h
    have hrest := ih (streamStep proc batchSize s v) h
    have hstep := streamStep_total proc batchSize s v hrest.1
    refine ⟨hstep.1, ?_⟩
    have h1 := hrest.2
    have h2 := hstep.2
    simp only [List.foldl_cons, List.length_cons] at *
    omega

theorem streamFlush_total {T E : Type} (proc : List T → Except E Unit)
    (s : StreamState T E) :
    (streamFlush proc s).totalProcessed
      = s.totalProcessed + s.batch.length := by
  unfold streamFlush
  by_cases hb : s.batch.isEmpty
  · rw [if_pos hb]
    have : s.batch = [] := by simpa [List.isEmpty_iff] using hb
    simp [this]
  · rw [if_neg hb]

/-- Claim C7: whenever `streamJsonArray` resolves (outcome `Except.ok n`),
the reported total-processed count `n` equals the number of elements of the
streamed array — all full batches plus the flushed final partial batch. -/
theorem streamJsonArray_total_count {T E : Type}
    (proc : List T → Except E Unit) (batchSize : Nat) (elems : List T)
    (n : Nat)
    (h : (streamJsonArray proc batchSize elems StreamTerminal.normalEnd).2
        = some (Except.ok n)) :
    n = elems.length := by
  unfold streamJsonArray at h
  cases hr : (elems.foldl (streamStep proc batchSize) initStreamState).rejectedWith with
  | some e => simp only [hr] at h; exact absurd h (by simp)
  | none =>
    simp only [hr] at h
    cases hfe : firstError (streamFlush proc
        (elems.foldl (streamStep proc batchSize) initStreamState)).queue with
    | some e => simp only [hfe] at h; exact absurd h (by simp)
    | none =>
      simp only [hfe, Option.some.injEq, Except.ok.injEq] at h
      subst h
      rw [streamFlush_total]
      have htot := streamFold_total proc batchSize elems initStreamState hr
      have h2 := htot.2
      have hz : (initStreamState : StreamState T E).totalProcessed
          + (initStreamState : StreamState T E).batch.length = 0 := rfl
      omega

set_option maxRecDepth 100000 in
set_option maxHeartbeats 1000000 in
/-- Witness for `streamJsonArray_total_count` at a concrete input:
250 elements with batch size 100 resolve with count 250. -/
theorem streamJsonArray_total_count_witness :
    (streamJsonArray (fun _ => (Except.ok () : Except Nat Unit)) 100
        (List.range 250) StreamTerminal.normalEnd).2 = some (Except.ok 250) ∧
      (250 : Nat) = (List.range 250).length :=
  ⟨by decide, streamJsonArray_total_count (fun _ => (Except.ok () : Except Nat Unit))
    100 (List.range 250) 250 (by decide)⟩

/-! ### Claim C5: failure propagation of `streamJsonArray` -/

/-- Claim C5 (failing input).  The claim states that every processor
rejection — including one dispatched for the final partial batch at
end-of-stream — causes the promise returned by `streamJsonArray` to
reject.  In the code, the `end` handler is an `async` callback that does
`await Promise.all(promises)` with no `try`/`catch` and no
`.catch(reject)`: a rejection there makes the handler throw before
`resolve` is reached, so the returned promise never settles (outcome
`none`) instead of rejecting.  Concretely: a 1-element array (batch size
100, so the only dispatch is the final partial batch) whose processor
rejects leaves the promise forever pending. -/
theorem streamJsonArray_final_rejection_no_settle :
    (streamJsonArray (fun _ => (Except.error 0 : Except Nat Unit)) 100
        [0] StreamTerminal.normalEnd).2 = none := by decide

/-! ### `processBatches` (import-data.ts, lines 137-158)

    async function processBatches(items, batchSize, concurrency, processor) {
      const batches = chunk(items, batchSize)
      const results = []
      for (let i = 0; i < batches.length; i += concurrency) {
        const concurrentBatches = batches.slice(i, i + concurrency)
        const batchResults = await Promise.all(
          concurrentBatches.map((batch, idx) => processor(batch, i + idx)))
        results.push(...batchResults)
      }
      return results
    }

Each loop iteration is a wave: the next `concurrency` batches (a group of
`chunk batches concurrency`) are all dispatched, then `Promise.all` joins
them — a barrier — before the next wave starts; a rejection makes the
`await` throw, aborting the loop with the first rejection of the wave (in
array order, since the processors here are modelled as pure functions whose
promises are already settled when `Promise.all` attaches its handlers).
`runWaves` additionally records an event trace: `start i` when batch `i` is
dispatched and `finish i` when its invocation is awaited at the wave
barrier; on a failing wave the dispatches are recorded but the run stops. -/

def promiseAll {E R : Type} : List (Except E R) → Except E (List R)
  | [] => Except.ok []
  | Except.error e :: _ => Except.error e
  | Except.ok r :: rest =>
    match promiseAll rest with
    | Except.ok rs => Except.ok (r :: rs)
    | Except.error e => Except.error e

inductive BatchEvent where
  | start (i : Nat)
  | finish (i : Nat)
deriving DecidableEq

/-- The results of `concurrentBatches.map((batch, idx) => processor(batch, i + idx))`. -/
def waveCalls {T E R : Type} (proc : List T → Nat → Except E R) (base : Nat)
    (wave : List (List T)) : List (Except E R) :=
  wave.enum.map (fun p => proc p.2 (base + p.1))

def waveStarts (base n : Nat) : List BatchEvent :=
  (List.range n).map (fun j => BatchEvent.start (base + j))

def waveFinishes (base n : Nat) : List BatchEvent :=
  (List.range n).map (fun j => BatchEvent.finish (base + j))

def runWaves {T E R : Type} (proc : List T → Nat → Except E R)
    (concurrency : Nat) :
    List (List (List T)) → Nat → Except E (List R) × List BatchEvent
  | [], _ => (Except.ok [], [])
  | w :: ws, base =>
    match promiseAll (waveCalls proc base w) with
    | Except.error e => (Except.error e, waveStarts base w.length)
    | Except.ok vals =>
      let rest := runWaves proc concurrency ws (base + concurrency)
      ((match rest.1 with
        | Except.error e => Except.error e
        | Except.ok more => Except.ok (vals ++ more)),
       waveStarts base w.length ++ (waveFinishes base w.length ++ rest.2))

def processBatches {T E R : Type} (items : List T) (batchSize concurrency : Nat)
    (proc : List T → Nat → Except E R) : Except E (List R) × List BatchEvent :=
  runWaves proc concurrency (chunk (chunk items batchSize) concurrency) 0

theorem mem_waveStarts_iff {j base n : Nat} :
    BatchEvent.start j ∈ waveStarts base n ↔ base ≤ j ∧ j < base + n := by
  simp only [waveStarts, List.mem_map, List.mem_range, BatchEvent.start.injEq]
  constructor
  · rintro ⟨a, ha, rfl⟩; omega
  · rintro ⟨h1, h2⟩; exact ⟨j - base, by omega, by omega⟩

theorem mem_waveFinishes_iff {j base n : Nat} :
    BatchEvent.finish j ∈ waveFinishes base n ↔ base ≤ j ∧ j < base + n := by
  simp only [waveFinishes, List.mem_map, List.mem_range, BatchEvent.finish.injEq]
  constructor
  · rintro ⟨a, ha, rfl⟩; omega
  · rintro ⟨h1, h2⟩; exact ⟨j - base, by omega, by omega⟩

theorem start_not_mem_waveFinishes {j base n : Nat} :
    BatchEvent.start j ∉ waveFinishes base n := by
  simp [waveFinishes, List.mem_map]

theorem finish_not_mem_waveStarts {j base n : Nat} :
    BatchEvent.finish j ∉ waveStarts base n := by
  simp [waveStarts, List.mem_map]

theorem runWaves_cons_ok {T E R : Type} {proc : List T → Nat → Except E R}
    {C : Nat} {w : List (List T)} {ws : List (List (List T))} {base : Nat}
    {vals : List R}
    (h : (runWaves proc C (w :: ws) base).1 = Except.ok vals) :
    (∃ vw, promiseAll (waveCalls proc base w) = Except.ok vw) ∧
      (∃ vrest, (runWaves proc C ws (base + C)).1 = Except.ok vrest) ∧
      (runWaves proc C (w :: ws) base).2
        = waveStarts base w.length
            ++ (waveFinishes base w.length ++ (runWaves proc C ws (base + C)).2) := by
  cases hpa : promiseAll (waveCalls proc base w) with
  | error e =>
    simp only [runWaves, hpa] at h
    exact Except.noConfusion h
  | ok vw =>
    cases hr1 : (runWaves proc C ws (base + C)).1 with
    | error e =>
      simp only [runWaves, hpa, hr1] at h
      exact Except.noConfusion h
    | ok vrest =>
      refine ⟨⟨vw, rfl⟩, ⟨vrest, rfl⟩, ?_⟩
      simp only [runWaves, hpa]

theorem runWaves_ok_start_mem {T E R : Type} (proc : List T → Nat → Except E R)
    (C : Nat) :
    ∀ (ws : List (List (List T))) (base : Nat) (vals : List R),
      (runWaves proc C ws base).1 = Except.ok vals →
      ∀ (l : Nat) (wl : List (List T)) (il : Nat), ws[l]? = some wl →
        il < wl.length →
        BatchEvent.start (base + C * l + il) ∈ (runWaves proc C ws base).2 := by
  intro ws
  induction ws with
  | nil => intro base vals _ l wl il hget _; simp at hget
  | cons w ws ih =>
    intro base vals h l wl il hget hil
    obtain ⟨⟨vw, hvw⟩, ⟨vrest, hvrest⟩, hev⟩ := runWaves_cons_ok h
    rw [hev]
    cases l with
    | zero =>
      simp only [List.getElem?_cons_zero, Option.some.injEq] at hget
      subst hget
      apply List.mem_append_left
      rw [mem_waveStarts_iff]
      omega
    | succ l' =>
      simp only [List.getElem?_cons_succ] at hget
      have hmem := ih (base + C) vrest hvrest l' wl il hget hil
      have hidx : base + C + C * l' + il = base + C * (l' + 1) + il := by ring_nf
      rw [hidx] at hmem
      exact List.mem_append_right _ (List.mem_append_right _ hmem)

theorem runWaves_barrier {T E R : Type} (proc : List T → Nat → Except E R)
    (C : Nat) :
    ∀ (ws : List (List (List T))) (base : Nat) (vals : List R),
      (runWaves proc C ws base).1 = Except.ok vals →
      (∀ w ∈ ws, w.length ≤ C) →
      ∀ (k l : Nat) (wk wl : List (List T)) (ik il : Nat),
        ws[k]? = some wk → ws[l]? = some wl → k < l →
        ik < wk.length → il < wl.length →
        ∃ pre suf, (runWaves proc C ws base).2 = pre ++ suf ∧
          BatchEvent.finish (base + C * k + ik) ∈ pre ∧
          BatchEvent.start (base + C * l + il) ∉ pre ∧
          BatchEvent.start (base + C * l + il) ∈ suf := by
  intro ws
  induction ws with
  | nil => intro base vals _ _ k l wk wl ik il hgk _ _ _ _; simp at hgk
  | cons w ws ih =>
    intro base vals h hw k l wk wl ik il hgk hgl hkl hik hil
    obtain ⟨⟨vw, hvw⟩, ⟨vrest, hvrest⟩, hev⟩ := runWaves_cons_ok h
    have hwlen : w.length ≤ C := hw w (List.mem_cons_self w ws)
    cases l with
    | zero => omega
    | succ l' =>
      simp only [List.getElem?_cons_succ] at hgl
      cases k with
      | zero =>
        simp only [List.getElem?_cons_zero, Option.some.injEq] at hgk
        subst hgk
        refine ⟨waveStarts base w.length ++ waveFinishes base w.length,
          (runWaves proc C ws (base + C)).2, ?_, ?_, ?_, ?_⟩
        · rw [hev, List.append_assoc]
        · apply List.mem_append_right
          rw [mem_waveFinishes_iff]
          omega
        · intro hmem
          rcases List.mem_append.mp hmem with hmem | hmem
          · rw [mem_waveStarts_iff] at hmem
            have : C ≤ C * (l' + 1) := Nat.le_mul_of_pos_right C (Nat.succ_pos l')
            omega
          · exact start_not_mem_waveFinishes hmem
        · have hmem := runWaves_ok_start_mem proc C ws (base + C) vrest hvrest
            l' wl il hgl hil
          have hidx : base + C + C * l' + il = base + C * (l' + 1) + il := by ring_nf
          rw [hidx] at hmem
          exact hmem
      | succ k' =>
        simp only [List.getElem?_cons_succ] at hgk
        obtain ⟨pre', suf', hev', hfin', hnost', hst'⟩ :=
          ih (base + C) vrest hvrest (fun x hx => hw x (List.mem_cons_of_mem w hx))
            k' l' wk wl ik il hgk hgl (by omega) hik hil
        refine ⟨waveStarts base w.length ++ (waveFinishes base w.length ++ pre'),
          suf', ?_, ?_, ?_, ?_⟩
        · rw [hev, hev']
          simp [List.append_assoc]
        · have hidx : base + C + C * k' + ik = base + C * (k' + 1) + ik := by ring_nf
          rw [hidx] at hfin'
          exact List.mem_append_right _ (List.mem_append_right _ hfin')
        · have hidx : base + C + C * l' + il = base + C * (l' + 1) + il := by ring_nf
          intro hmem
          rcases List.mem_append.mp hmem with hmem | hmem
          · rw [mem_waveStarts_iff] at hmem
            have : C ≤ C * (l' + 1) := Nat.le_mul_of_pos_right C (Nat.succ_pos l')
            omega
          · rcases List.mem_append.mp hmem with hmem | hmem
            · exact start_not_mem_waveFinishes hmem
            · rw [← hidx] at hmem
              exact hnost' hmem
        · have hidx : base + C + C * l' + il = base + C * (l' + 1) + il := by ring_nf
          rw [hidx] at hst'
          exact hst'

theorem runWaves_abort {T E R : Type} (proc : List T → Nat → Except E R)
    (C : Nat) :
    ∀ (ws : List (List (List T))) (base : Nat) (k : Nat)
      (wk : List (List T)) (e : E),
      ws[k]? = some wk →
      promiseAll (waveCalls proc (base + C * k) wk) = Except.error e →
      (∀ k' wk', k' < k → ws[k']? = some wk' →
        ∃ v, promiseAll (waveCalls proc (base + C * k') wk') = Except.ok v) →
      (∀ w ∈ ws, w.length ≤ C) →
      (runWaves proc C ws base).1 = Except.error e ∧
        (∀ ik, ik < wk.length →
          BatchEvent.start (base + C * k + ik) ∈ (runWaves proc C ws base).2) ∧
        (∀ j, base + C * (k + 1) ≤ j →
          BatchEvent.start j ∉ (runWaves proc C ws base).2) := by
  intro ws
  induction ws with
  | nil => intro base k wk e hgk _ _ _; simp at hgk
  | cons w ws ih =>
    intro base k wk e hgk herr hok hw
    have hwlen : w.length ≤ C := hw w (List.mem_cons_self w ws)
    cases k with
    | zero =>
      simp only [List.getElem?_cons_zero, Option.some.injEq] at hgk
      subst hgk
      have herr' : promiseAll (waveCalls proc base w) = Except.error e := by
        have hz : base + C * 0 = base := by ring_nf
        rwa [hz] at herr
      refine ⟨?_, ?_, ?_⟩
      · simp only [runWaves, herr']
      · intro ik hik
        simp only [runWaves, herr']
        rw [mem_waveStarts_iff]
        omega
      · intro j hj hmem
        simp only [runWaves, herr'] at hmem
        rw [mem_waveStarts_iff] at hmem
        omega
    | succ k' =>
      simp only [List.getElem?_cons_succ] at hgk
      obtain ⟨v0, hv0⟩ := hok 0 w (Nat.succ_pos k') (by simp)
      have hv0' : promiseAll (waveCalls proc base w) = Except.ok v0 := by
        have : base + C * 0 = base := by ring_nf
        rwa [this] at hv0
      have hshift : ∀ m, base + C + C * m = base + C * (m + 1) := by
        intro m; ring_nf
      have herr' : promiseAll (waveCalls proc (base + C + C * k') wk)
          = Except.error e := by
        rw [hshift k']; exact herr
      have hok' : ∀ k'' wk'', k'' < k' → ws[k'']? = some wk'' →
          ∃ v, promiseAll (waveCalls proc (base + C + C * k'') wk'')
            = Except.ok v := by
        intro k'' wk'' hlt hget
        rw [hshift k'']
        exact hok (k'' + 1) wk'' (by omega) (by simpa using hget)
      obtain ⟨hres, hstarts, hnost⟩ :=
        ih (base + C) k' wk e hgk herr' hok'
          (fun x hx => hw x (List.mem_cons_of_mem w hx))
      refine ⟨?_, ?_, ?_⟩
      · simp only [runWaves, hv0', hres]
      · intro ik hik
        have := hstarts ik hik
        rw [hshift k'] at this
        simp only [runWaves, hv0']
        exact List.mem_append_right _ (List.mem_append_right _ this)
      · intro j hj hmem
        simp only [runWaves, hv0'] at hmem
        rcases List.mem_append.mp hmem with hmem | hmem
        · rw [mem_waveStarts_iff] at hmem
          have : C ≤ C * (k' + 1 + 1) := Nat.le_mul_of_pos_right C (by omega)
          omega
        · rcases List.mem_append.mp hmem with hmem | hmem
          · exact start_not_mem_waveFinishes hmem
          · refine hnost j ?_ hmem
            rw [hshift (k' + 1)]
            exact hj

theorem chunk_map_length_seven {β : Type} (l : List β) (h : l.length = 7) :
    (chunk l 3).map List.length = [3, 3, 1] := by
  have h1 : l ≠ [] := by intro e; rw [e] at h; simp at h
  rw [chunk_cons h1 (by decide)]
  have hd1 : (l.drop 3).length = 4 := by simp [List.length_drop, h]
  have h2 : l.drop 3 ≠ [] := by intro e; rw [e] at hd1; simp at hd1
  rw [chunk_cons h2 (by decide)]
  have hd2 : ((l.drop 3).drop 3).length = 1 := by
    simp [List.length_drop, h]
  have h3 : (l.drop 3).drop 3 ≠ [] := by intro e; rw [e] at hd2; simp at hd2
  rw [chunk_cons h3 (by decide)]
  have hd3 : ((l.drop 3).drop 3).drop 3 = [] := by
    apply List.eq_nil_of_length_eq_zero
    simp [List.length_drop, h]
  rw [hd3, chunk_nil]
  simp only [List.map_cons, List.map_nil, List.length_take, hd2]
  rw [List.length_drop, h]
  norm_num

/-! ### Claim C3: wave semantics of `processBatches` -/

/-- Claim C3: with concurrency 3 an input of 7 batches executes in waves of
sizes `[3, 3, 1]`; for every input, in a successful run every batch of an
earlier wave finishes (is awaited at its wave's `Promise.all` barrier)
before any batch of a later wave starts — the event trace splits so that
the earlier batch's `finish` is in the prefix and the later batch's `start`
only in the suffix; and if every wave before wave `k` succeeds while wave
`k`'s `Promise.all` rejects with `e`, the run returns `Except.error e`
(the first error of the failing wave), every batch of wave `k` is still
dispatched, and no batch of any later wave ever starts. -/
theorem processBatches_waves {T E R : Type} (items : List T) (batchSize : Nat)
    (proc : List T → Nat → Except E R) :
    ((chunk items batchSize).length = 7 →
      (chunk (chunk items batchSize) 3).map List.length = [3, 3, 1])
    ∧ (∀ vals, (processBatches items batchSize 3 proc).1 = Except.ok vals →
        ∀ (k l : Nat) (wk wl : List (List T)) (ik il : Nat),
          (chunk (chunk items batchSize) 3)[k]? = some wk →
          (chunk (chunk items batchSize) 3)[l]? = some wl →
          k < l → ik < wk.length → il < wl.length →
          ∃ pre suf, (processBatches items batchSize 3 proc).2 = pre ++ suf ∧
            BatchEvent.finish (3 * k + ik) ∈ pre ∧
            BatchEvent.start (3 * l + il) ∉ pre ∧
            BatchEvent.start (3 * l + il) ∈ suf)
    ∧ (∀ (k : Nat) (wk : List (List T)) (e : E),
        (chunk (chunk items batchSize) 3)[k]? = some wk →
        promiseAll (waveCalls proc (3 * k) wk) = Except.error e →
        (∀ k' wk', k' < k → (chunk (chunk items batchSize) 3)[k']? = some wk' →
          ∃ v, promiseAll (waveCalls proc (3 * k') wk') = Except.ok v) →
        (processBatches items batchSize 3 proc).1 = Except.error e ∧
          (∀ ik, ik < wk.length → BatchEvent.start (3 * k + ik)
            ∈ (processBatches items batchSize 3 proc).2) ∧
          (∀ j, 3 * (k + 1) ≤ j → BatchEvent.start j
            ∉ (processBatches items batchSize 3 proc).2)) := by
  have hw : ∀ w ∈ chunk (chunk items batchSize) 3, w.length ≤ 3 :=
    chunk_length_le (by decide) (chunk items batchSize)
  refine ⟨fun h7 => chunk_map_length_seven _ h7, ?_, ?_⟩
  · intro vals hok k l wk wl ik il hgk hgl hkl hik hil
    have := runWaves_barrier proc 3 (chunk (chunk items batchSize) 3) 0 vals
      hok hw k l wk wl ik il hgk hgl hkl hik hil
    simpa [processBatches] using this
  · intro k wk e hgk herr hok
    have herr0 : promiseAll (waveCalls proc (0 + 3 * k) wk) = Except.error e := by
      simpa using herr
    have hok0 : ∀ k' wk', k' < k →
        (chunk (chunk items batchSize) 3)[k']? = some wk' →
        ∃ v, promiseAll (waveCalls proc (0 + 3 * k') wk') = Except.ok v := by
      intro k' wk' hlt hget
      simpa using hok k' wk' hlt hget
    have := runWaves_abort proc 3 (chunk (chunk items batchSize) 3) 0 k wk e
      hgk herr0 hok0 hw
    simpa [processBatches] using this

/-- Failing processor used in the witness: batch index 3 rejects. -/
def procC3 : List Nat → Nat → Except Nat Nat :=
  fun _ i => if i = 3 then Except.error 9 else Except.ok i

/-- Succeeding processor used in the witness. -/
def procC3ok : List Nat → Nat → Except Nat Nat :=
  fun _ i => Except.ok i

/-- Witness for `processBatches_waves` at concrete inputs: 7 singleton
batches, concurrency 3; wave sizes are `[3, 3, 1]`; with a processor whose
batch 3 (first batch of the second wave) rejects, the run returns that
error and batch 6 (third wave) never starts; with a succeeding processor,
batch 0 finishes before batch 3 starts. -/
theorem processBatches_waves_witness :
    (chunk (chunk (List.range 7) 1) 3).map List.length = [3, 3, 1] ∧
      (processBatches (List.range 7) 1 3 procC3).1 = Except.error 9 ∧
      BatchEvent.start 6 ∉ (processBatches (List.range 7) 1 3 procC3).2 ∧
      (∃ pre suf, (processBatches (List.range 7) 1 3 procC3ok).2 = pre ++ suf ∧
        BatchEvent.finish 0 ∈ pre ∧ BatchEvent.start 3 ∉ pre ∧
        BatchEvent.start 3 ∈ suf) := by
  have habort := (processBatches_waves (List.range 7) 1 procC3).2.2 1
    [[3], [4], [5]] 9 (by decide) (by decide) ?hok
  case hok =>
    intro k' wk' hlt hget
    interval_cases k'
    have hwk' : wk' = [[0], [1], [2]] := by
      have hc0 : (chunk (chunk (List.range 7) 1) 3)[0]? = some [[0], [1], [2]] := by
        decide
      rw [hc0] at hget
      exact (Option.some_inj.mp hget).symm
    subst hwk'
    exact ⟨[0, 1, 2], by decide⟩
  have hbarrier := (processBatches_waves (List.range 7) 1 procC3ok).2.1
    [0, 1, 2, 3, 4, 5, 6] (by decide) 0 1 [[0], [1], [2]] [[3], [4], [5]]
    0 0 (by decide) (by decide) (by decide) (by decide) (by decide)
  refine ⟨(processBatches_waves (List.range 7) 1 procC3).1 (by decide),
    habort.1, ?_, ?_⟩
  · exact habort.2.2 6 (by decide)
  · obtain ⟨pre, suf, h1, h2, h3, h4⟩ := hbarrier
    exact ⟨pre, suf, by simpa using h1, by simpa using h2, by simpa using h3,
      by simpa using h4⟩

/-! ### The `importExtensions` bulk upsert (import-data.ts, lines 180-195)

    const results = await db.insert(schema.extensions).values(batch)
      .onConflictDoUpdate({
        target: schema.extensions.name,
        set: {
          dateAdded: schema.extensions.dateAdded,
          hasFeatures: schema.extensions.hasFeatures,
          hasProperties: schema.extensions.hasProperties,
        }
      })
      .returning({ id: schema.extensions.id, name: schema.extensions.name })
    for (const r of results) { extensionMap.set(r.name, r.id) }

The table is a list of rows with generated ids.  Crucially, the `set`
clause references `schema.extensions.*` — the target table's own columns —
not the excluded (incoming) row, so on a `name` conflict PostgreSQL
executes `SET date_added = extensions.date_added, ...`: the conflicting
row is assigned its own current values and keeps them (the update serves
only to make `RETURNING` include the row).  The embedding performs the
value rows of one statement in order; the returned `(id, name)` pairs then
populate the name→id map via JavaScript `Map.set`. -/

structure ExtRow where
  id : Nat
  name : String
  dateAdded : Option String
  hasFeatures : Bool
  hasProperties : Bool
deriving DecidableEq

structure ExtValue where
  name : String
  dateAdded : Option String
  hasFeatures : Bool
  hasProperties : Bool
deriving DecidableEq

/-- Upsert of a single value row, with the self-referential `set` clause as
written in the source. -/
def upsertExtValue (table : List ExtRow) (nextId : Nat) (v : ExtValue) :
    List ExtRow × Nat × (Nat × String) :=
  match table.find? (fun r => r.name = v.name) with
  | some r =>
    (table.map (fun x =>
      if x.name = v.name then
        { x with
          dateAdded := x.dateAdded,
          hasFeatures := x.hasFeatures,
          hasProperties := x.hasProperties }
      else x),
      nextId, (r.id, r.name))
  | none =>
    (table ++
        [{ id := nextId,
           name := v.name,
           dateAdded := v.dateAdded,
           hasFeatures := v.hasFeatures,
           hasProperties := v.hasProperties }],
      nextId + 1, (nextId, v.name))

/-- One `db.insert(...).values(batch)...returning(...)` statement: value
rows processed in order; returns the final table, the next free id and the
returned `(id, name)` pairs. -/
def upsertExtensionsBatch (table : List ExtRow) (nextId : Nat) :
    List ExtValue → List ExtRow × Nat × List (Nat × String)
  | [] => (table, nextId, [])
  | v :: rest =>
    let step := upsertExtValue table nextId v
    let further := upsertExtensionsBatch step.1 step.2.1 rest
    (further.1, further.2.1, step.2.2 :: further.2.2)

/-- JavaScript `Map.set`: replace the existing entry or append a new one. -/
def mapSet : List (String × Nat) → String → Nat → List (String × Nat)
  | [], k, v => [(k, v)]
  | p :: t, k, v => if p.1 = k then (k, v) :: t else p :: mapSet t k v

/-- JavaScript `Map.get`. -/
def mapLookup : List (String × Nat) → String → Option Nat
  | [], _ => none
  | p :: t, k => if p.1 = k then some p.2 else mapLookup t k

/-- The `for (const r of results) extensionMap.set(r.name, r.id)` loop. -/
def populateExtensionMap (m : List (String × Nat))
    (returned : List (Nat × String)) : List (String × Nat) :=
  returned.foldl (fun acc r => mapSet acc r.2 r.1) m

theorem upsertUpdateFun_id (v : ExtValue) :
    (fun x : ExtRow =>
      if x.name = v.name then
        { x with
          dateAdded := x.dateAdded,
          hasFeatures := x.hasFeatures,
          hasProperties := x.hasProperties }
      else x) = fun x => x := by
  funext x
  show (if x.name = v.name then x else x) = x
  exact ite_self x

theorem upsertExtValue_table (table : List ExtRow) (nextId : Nat)
    (v : ExtValue) :
    ∃ newRows, (upsertExtValue table nextId v).1 = table ++ newRows := by
  cases hf : table.find? (fun r => r.name = v.name) with
  | some r =>
    refine ⟨[], ?_⟩
    simp [upsertExtValue, hf, upsertUpdateFun_id v]
  | none =>
    exact ⟨[{ id := nextId,
              name := v.name,
              dateAdded := v.dateAdded,
              hasFeatures := v.hasFeatures,
              hasProperties := v.hasProperties }],
      by simp only [upsertExtValue, hf]⟩

theorem upsertExtValue_returned (table : List ExtRow) (nextId : Nat)
    (v : ExtValue) :
    (∃ row ∈ (upsertExtValue table nextId v).1,
        row.id = (upsertExtValue table nextId v).2.2.1 ∧
        row.name = (upsertExtValue table nextId v).2.2.2) ∧
      (upsertExtValue table nextId v).2.2.2 = v.name := by
  cases hf : table.find? (fun r => r.name = v.name) with
  | some r =>
    have hmem : r ∈ table := List.mem_of_find?_eq_some hf
    have hpa := List.find?_some hf
    have hname : r.name = v.name := by simpa using hpa
    simp only [upsertExtValue, hf, upsertUpdateFun_id v, List.map_id']
    exact ⟨⟨r, hmem, rfl, rfl⟩, hname⟩
  | none =>
    simp only [upsertExtValue, hf]
    exact ⟨⟨_, List.mem_append_right _ (List.mem_singleton_self _), rfl, rfl⟩, trivial⟩

theorem mapLookup_set_self : ∀ (m : List (String × Nat)) (k : String) (v : Nat),
    mapLookup (mapSet m k v) k = some v := by
  intro m k v
  induction m with
  | nil => simp [mapSet, mapLookup]
  | cons p t ih =>
    by_cases hp : p.1 = k
    · simp [mapSet, hp, mapLookup]
    · simp [mapSet, hp, mapLookup, ih]

theorem mapLookup_set_other :
    ∀ (m : List (String × Nat)) (k : String) (v : Nat) (j : String), j ≠ k →
      mapLookup (mapSet m k v) j = mapLookup m j := by
  intro m k v j hj
  have hkj : ¬ k = j := fun h => hj h.symm
  induction m with
  | nil =>
    simp only [mapSet, mapLookup]
    rw [if_neg hkj]
  | cons p t ih =>
    simp only [mapSet]
    by_cases hp : p.1 = k
    · rw [if_pos hp]
      simp only [mapLookup]
      rw [if_neg hkj, if_neg (show ¬ p.1 = j by rw [hp]; exact hkj)]
    · rw [if_neg hp]
      simp only [mapLookup]
      by_cases hpj : p.1 = j
      · rw [if_pos hpj, if_pos hpj]
      · rw [if_neg hpj, if_neg hpj, ih]

theorem populate_lookup_or :
    ∀ (returned : List (Nat × String)) (m : List (String × Nat)) (k : String),
      mapLookup (populateExtensionMap m returned) k = mapLookup m k ∨
        ∃ q ∈ returned, q.2 = k ∧
          mapLookup (populateExtensionMap m returned) k = some q.1 := by
  intro returned
  induction returned with
  | nil => intro m k; left; rfl
  | cons x rest ih =>
    intro m k
    have hunf : populateExtensionMap m (x :: rest)
        = populateExtensionMap (mapSet m x.2 x.1) rest := rfl
    rcases ih (mapSet m x.2 x.1) k with h | ⟨q, hq, hqk, hql⟩
    · by_cases hxk : x.2 = k
      · right
        refine ⟨x, List.mem_cons_self x rest, hxk, ?_⟩
        rw [hunf, h, ← hxk]
        exact mapLookup_set_self m x.2 x.1
      · left
        rw [hunf, h]
        exact mapLookup_set_other m x.2 x.1 k (fun h' => hxk h'.symm)
    · right
      exact ⟨q, List.mem_cons_of_mem x hq, hqk, by rw [hunf]; exact hql⟩

theorem populate_lookup (returned : List (Nat × String))
    (m : List (String × Nat)) :
    ∀ p ∈ returned, ∃ i,
      mapLookup (populateExtensionMap m returned) p.2 = some i ∧
        ∃ q ∈ returned, q.2 = p.2 ∧ q.1 = i := by
  induction returned generalizing m with
  | nil => intro p hp; simp at hp
  | cons x rest ih =>
    intro p hp
    have hunf : populateExtensionMap m (x :: rest)
        = populateExtensionMap (mapSet m x.2 x.1) rest := rfl
    rcases List.mem_cons.mp hp with rfl | hp'
    · rcases populate_lookup_or rest (mapSet m p.2 p.1) p.2 with h | ⟨q, hq, hqk, hql⟩
      · refine ⟨p.1, ?_, p, List.mem_cons_self p rest, rfl, rfl⟩
        rw [hunf, h]
        exact mapLookup_set_self m p.2 p.1
      · exact ⟨q.1, by rw [hunf]; exact hql,
          q, List.mem_cons_of_mem p hq, hqk, rfl⟩
    · obtain ⟨i, hl, q, hq, hqk, hqi⟩ := ih (mapSet m x.2 x.1) p hp'
      exact ⟨i, by rw [hunf]; exact hl, q, List.mem_cons_of_mem x hq, hqk, hqi⟩

theorem upsertExtensionsBatch_structure :
    ∀ (batch : List ExtValue) (table : List ExtRow) (nextId : Nat),
      (∃ newRows,
        (upsertExtensionsBatch table nextId batch).1 = table ++ newRows) ∧
      (∀ p ∈ (upsertExtensionsBatch table nextId batch).2.2,
        ∃ row ∈ (upsertExtensionsBatch table nextId batch).1,
          row.id = p.1 ∧ row.name = p.2) ∧
      (∀ v ∈ batch, ∃ p ∈ (upsertExtensionsBatch table nextId batch).2.2,
        p.2 = v.name) := by
  intro batch
  induction batch with
  | nil =>
    intro table nextId
    exact ⟨⟨[], by simp [upsertExtensionsBatch]⟩,
      by intro p hp; simp [upsertExtensionsBatch] at hp,
      by intro v hv; simp at hv⟩
  | cons v rest ih =>
    intro table nextId
    obtain ⟨d1, hd1⟩ := upsertExtValue_table table nextId v
    obtain ⟨⟨row0, hrow0, hid0, hname0⟩, hretname⟩ :=
      upsertExtValue_returned table nextId v
    obtain ⟨⟨d2, hd2⟩, hret, hcov⟩ :=
      ih (upsertExtValue table nextId v).1 (upsertExtValue table nextId v).2.1
    have hres1 : (upsertExtensionsBatch table nextId (v :: rest)).1
        = (upsertExtensionsBatch (upsertExtValue table nextId v).1
            (upsertExtValue table nextId v).2.1 rest).1 := rfl
    have hres2 : (upsertExtensionsBatch table nextId (v :: rest)).2.2
        = (upsertExtValue table nextId v).2.2
          :: (upsertExtensionsBatch (upsertExtValue table nextId v).1
              (upsertExtValue table nextId v).2.1 rest).2.2 := rfl
    refine ⟨⟨d1 ++ d2, ?_⟩, ?_, ?_⟩
    · rw [hres1, hd2, hd1, List.append_assoc]
    · intro p hp
      rw [hres2] at hp
      rcases List.mem_cons.mp hp with rfl | hp'
      · refine ⟨row0, ?_, hid0, hname0⟩
        rw [hres1, hd2]
        exact List.mem_append_left _ hrow0
      · obtain ⟨row, hrow, hi, hn⟩ := hret p hp'
        exact ⟨row, by rw [hres1]; exact hrow, hi, hn⟩
    · intro u hu
      rcases List.mem_cons.mp hu with rfl | hu'
      · refine ⟨(upsertExtValue table nextId u).2.2, ?_, hretname⟩
        rw [hres2]
        exact List.mem_cons_self _ _
      · obtain ⟨p, hp, hpn⟩ := hcov u hu'
        exact ⟨p, by rw [hres2]; exact List.mem_cons_of_mem _ hp, hpn⟩

/-! ### Claim C4: the extensions upsert keeps existing rows -/

/-- Claim C4 (counterexample).  The claim states that a batch row whose
name conflicts with an existing `extensions` row overwrites that row's
date-added / has-features / has-properties with the values computed from
the current input file.  The `set` clause of the statement references the
target table's own columns (`schema.extensions.dateAdded`, not the excluded
row), so the conflicting row is updated with its own current values: after
upserting `(name "a", date "new", features true, properties true)` onto a
table whose row "a" carries `("old", false, false)`, the row still carries
the old values. -/
theorem upsertExtensions_no_overwrite :
    (upsertExtensionsBatch
        [{ id := 1, name := "a", dateAdded := some "old",
           hasFeatures := false, hasProperties := false }] 2
        [{ name := "a", dateAdded := some "new",
           hasFeatures := true, hasProperties := true }]).1
      = [{ id := 1, name := "a", dateAdded := some "old",
           hasFeatures := false, hasProperties := false }] ∧
    ∀ r ∈ (upsertExtensionsBatch
        [{ id := 1, name := "a", dateAdded := some "old",
           hasFeatures := false, hasProperties := false }] 2
        [{ name := "a", dateAdded := some "new",
           hasFeatures := true, hasProperties := true }]).1,
      r.dateAdded ≠ some "new" ∧ r.hasFeatures = false ∧
        r.hasProperties = false := by
  constructor
  · decide
  · decide

/-- Claim C4 (amended): every batch bulk-upserted into `extensions` leaves
all pre-existing rows exactly as they were (a name conflict re-assigns the
row its own current values — the self-referential `set` clause — so
nothing is overwritten) and appends the genuinely new names; the statement
returns an `(id, name)` pair for every value row of the batch (this is the
purpose of the DO-UPDATE clause: conflicting rows are also returned), each
returned pair denotes a row present in the resulting table, and the
name→id lookup map is populated from the returned rows alone: after
population every returned name is mapped to the id of a returned row
bearing that name. -/
theorem upsertExtensions_spec (table : List ExtRow) (nextId : Nat)
    (batch : List ExtValue) (m : List (String × Nat)) :
    (∃ newRows,
      (upsertExtensionsBatch table nextId batch).1 = table ++ newRows) ∧
    (∀ p ∈ (upsertExtensionsBatch table nextId batch).2.2,
      ∃ row ∈ (upsertExtensionsBatch table nextId batch).1,
        row.id = p.1 ∧ row.name = p.2) ∧
    (∀ v ∈ batch, ∃ p ∈ (upsertExtensionsBatch table nextId batch).2.2,
      p.2 = v.name) ∧
    (∀ p ∈ (upsertExtensionsBatch table nextId batch).2.2,
      ∃ i, mapLookup (populateExtensionMap m
          (upsertExtensionsBatch table nextId batch).2.2) p.2 = some i ∧
        ∃ q ∈ (upsertExtensionsBatch table nextId batch).2.2,
          q.2 = p.2 ∧ q.1 = i) := by
  obtain ⟨h1, h2, h3⟩ := upsertExtensionsBatch_structure batch table nextId
  exact ⟨h1, h2, h3,
    populate_lookup (upsertExtensionsBatch table nextId batch).2.2 m⟩

/-! ### The device importer's per-batch processor (import-data.ts, lines 313-411)

`processBatch` iterates over the reports of a batch inside a per-report
`try { ... } catch { totalErrors++ }`.  The `try` block pushes rows into
seven shared staging arrays in a fixed order: the device row (reading
`report.properties.*` and `report.environment.*`), the device-extension
links, the limits row, up to four core-feature and core-property rows, the
extended-feature rows and the extended-property rows.  A thrown error is
caught and counted, and the loop continues with the next report — but the
rows already pushed for the failing report are not removed.

Throw points modelled (JavaScript `TypeError` on property access of a
nullish value): `report.properties` or `report.environment` nullish (throws
while building the device row, before any push); a nullish element of
`report.extensions` (throws at `ext.extensionName`); a nullish element of
`extended.devicefeatures2` or `extended.deviceproperties2`.  These are the
`none` constructors below; string fields use `Option (List Char)` because
`sanitizeString` accepts nullish input without throwing.  The opaque JSON
blobs (limits, core features/properties, extended property values) are an
arbitrary type `J`; `limits || {}` etc. keep the `Option`, `none` standing
for the substituted `{}`.  The `Except` value of each staging loop carries
the rows pushed before the throw. -/

/-- `getPlatform` (import-data.ts, lines 44-53). -/
def getPlatform (ostype : Int) : List Char :=
  if ostype = 0 then "windows".data
  else if ostype = 1 then "linux".data
  else if ostype = 2 then "android".data
  else if ostype = 3 then "macos".data
  else if ostype = 4 then "ios".data
  else "linux".data

structure ReportProps (J : Type) where
  deviceName : Option (List Char)
  deviceID : Int
  vendorID : Int
  deviceTypeText : Option (List Char)
  apiVersion : Int
  apiVersionText : Option (List Char)
  driverVersion : Int
  driverVersionText : Option (List Char)
  limits : Option J
  sparseProperties : Option J
  subgroupProperties : Option J

structure ReportEnv where
  name : Option (List Char)
  ostype : Int
  version : Option (List Char)
  architecture : Option (List Char)
  submitter : Option (List Char)

structure ExtEntry where
  extensionName : List Char
  specVersion : Int

structure CoreData (J : Type) where
  features : Option J
  properties : Option J

structure ExtFeatEntry where
  extension : List Char
  name : List Char
  supported : Bool

structure ExtPropEntry (J : Type) where
  extension : List Char
  name : List Char
  value : J

structure ExtendedData (J : Type) where
  devicefeatures2 : Option (List (Option ExtFeatEntry))
  deviceproperties2 : Option (List (Option (ExtPropEntry J)))

structure DeviceReport (J : Type) where
  reportId : Nat
  properties : Option (ReportProps J)
  environment : Option ReportEnv
  extensions : Option (List (Option ExtEntry))
  core11 : Option (CoreData J)
  core12 : Option (CoreData J)
  core13 : Option (CoreData J)
  core14 : Option (CoreData J)
  extended : Option (ExtendedData J)

structure DeviceRow where
  reportId : Nat
  deviceName : List Char
  vendorId : Int
  deviceId : Int
  deviceType : List Char
  apiVersion : List Char
  apiVersionRaw : Int
  driverVersion : List Char
  driverVersionRaw : Int
  platform : List Char
  osName : List Char
  osVersion : List Char
  architecture : List Char
  submitter : List Char

structure DeviceExtRow where
  reportId : Nat
  extensionId : Nat
  specVersion : Int

structure DeviceLimitsRow (J : Type) where
  reportId : Nat
  limits : Option J
  sparseProperties : Option J
  subgroupProperties : Option J

structure CoreFeaturesRow (J : Type) where
  reportId : Nat
  coreVersion : List Char
  features : J

structure CorePropsRow (J : Type) where
  reportId : Nat
  coreVersion : List Char
  properties : J

structure ExtFeaturesRow where
  reportId : Nat
  extensionName : List Char
  featureName : List Char
  supported : Bool

structure ExtPropsRow (J : Type) where
  reportId : Nat
  extensionName : List Char
  propertyName : List Char
  value : J

/-- The seven per-batch staging arrays. -/
structure StagedRows (J : Type) where
  deviceValues : List DeviceRow
  deviceExtValues : List DeviceExtRow
  deviceLimitsValues : List (DeviceLimitsRow J)
  coreFeaturesValues : List (CoreFeaturesRow J)
  corePropsValues : List (CorePropsRow J)
  extFeaturesValues : List ExtFeaturesRow
  extPropsValues : List (ExtPropsRow J)

def emptyStaged {J : Type} : StagedRows J :=
  { deviceValues := [], deviceExtValues := [], deviceLimitsValues := [],
    coreFeaturesValues := [], corePropsValues := [], extFeaturesValues := [],
    extPropsValues := [] }

def StagedRows.append {J : Type} (a b : StagedRows J) : StagedRows J :=
  { deviceValues := a.deviceValues ++ b.deviceValues,
    deviceExtValues := a.deviceExtValues ++ b.deviceExtValues,
    deviceLimitsValues := a.deviceLimitsValues ++ b.deviceLimitsValues,
    coreFeaturesValues := a.coreFeaturesValues ++ b.coreFeaturesValues,
    corePropsValues := a.corePropsValues ++ b.corePropsValues,
    extFeaturesValues := a.extFeaturesValues ++ b.extFeaturesValues,
    extPropsValues := a.extPropsValues ++ b.extPropsValues }

/-- The device row pushed first inside the `try` block. -/
def mkDeviceRow {J : Type} (rid : Nat) (props : ReportProps J)
    (env : ReportEnv) : DeviceRow :=
  { reportId := rid,
    deviceName := sanitizeString props.deviceName,
    vendorId := props.vendorID,
    deviceId := props.deviceID,
    deviceType := sanitizeString props.deviceTypeText,
    apiVersion := sanitizeString props.apiVersionText,
    apiVersionRaw := props.apiVersion,
    driverVersion := sanitizeString props.driverVersionText,
    driverVersionRaw := props.driverVersion,
    platform := getPlatform env.ostype,
    osName := sanitizeString env.name,
    osVersion := sanitizeString env.version,
    architecture := sanitizeString env.architecture,
    submitter := sanitizeString env.submitter }

/-- The `for (const ext of report.extensions)` loop: unknown extension
names are discarded; a nullish element throws, surrendering the rows
pushed so far. -/
def stageExtsGo (extMap : List Char → Option Nat) (rid : Nat)
    (acc : List DeviceExtRow) :
    List (Option ExtEntry) → Except (List DeviceExtRow) (List DeviceExtRow)
  | [] => Except.ok acc
  | none :: _ => Except.error acc
  | some e :: rest =>
    match extMap e.extensionName with
    | some extId =>
      stageExtsGo extMap rid
        (acc ++ [{ reportId := rid, extensionId := extId,
                   specVersion := e.specVersion }]) rest
    | none => stageExtsGo extMap rid acc rest

def extsStage {J : Type} (extMap : List Char → Option Nat)
    (r : DeviceReport J) : Except (List DeviceExtRow) (List DeviceExtRow) :=
  match r.extensions with
  | some exts => stageExtsGo extMap r.reportId [] exts
  | none => Except.ok []

/-- The `for (const coreVersion of coreVersions)` loop (no throw point). -/
def stageCore {J : Type} (rid : Nat) (r : DeviceReport J) :
    List (CoreFeaturesRow J) × List (CorePropsRow J) :=
  [("core11".data, r.core11), ("core12".data, r.core12),
   ("core13".data, r.core13), ("core14".data, r.core14)].foldl
    (fun acc p =>
      let acc1 := match p.2 with
        | some cd =>
          match cd.features with
          | some f => acc.1 ++ [{ reportId := rid, coreVersion := p.1,
                                  features := f }]
          | none => acc.1
        | none => acc.1
      let acc2 := match p.2 with
        | some cd =>
          match cd.properties with
          | some pr => acc.2 ++ [{ reportId := rid, coreVersion := p.1,
                                   properties := pr }]
          | none => acc.2
        | none => acc.2
      (acc1, acc2)) ([], [])

/-- The `for (const f of report.extended.devicefeatures2)` loop. -/
def stageExtFeaturesGo (rid : Nat) (acc : List ExtFeaturesRow) :
    List (Option ExtFeatEntry) → Except (List ExtFeaturesRow) (List ExtFeaturesRow)
  | [] => Except.ok acc
  | none :: _ => Except.error acc
  | some f :: rest =>
    stageExtFeaturesGo rid
      (acc ++ [{ reportId := rid, extensionName := f.extension,
                 featureName := f.name, supported := f.supported }]) rest

def featsStage {J : Type} (r : DeviceReport J) :
    Except (List ExtFeaturesRow) (List ExtFeaturesRow) :=
  match r.extended with
  | some ext =>
    match ext.devicefeatures2 with
    | some fs => stageExtFeaturesGo r.reportId [] fs
    | none => Except.ok []
  | none => Except.ok []

/-- The `for (const p of report.extended.deviceproperties2)` loop. -/
def stageExtPropsGo {J : Type} (rid : Nat) (acc : List (ExtPropsRow J)) :
    List (Option (ExtPropEntry J)) →
      Except (List (ExtPropsRow J)) (List (ExtPropsRow J))
  | [] => Except.ok acc
  | none :: _ => Except.error acc
  | some p :: rest =>
    stageExtPropsGo rid
      (acc ++ [{ reportId := rid, extensionName := p.extension,
                 propertyName := p.name, value := p.value }]) rest

def propsStage {J : Type} (r : DeviceReport J) :
    Except (List (ExtPropsRow J)) (List (ExtPropsRow J)) :=
  match r.extended with
  | some ext =>
    match ext.deviceproperties2 with
    | some ps => stageExtPropsGo r.reportId [] ps
    | none => Except.ok []
  | none => Except.ok []

/-- One iteration of the per-report `try`/`catch`: returns the staging
arrays after this report (rows pushed before a throw are kept) and whether
an error was thrown (to be counted). -/
def stageReport {J : Type} (extMap : List Char → Option Nat)
    (r : DeviceReport J) (acc : StagedRows J) : StagedRows J × Bool :=
  match r.properties, r.environment with
  | some props, some env =>
    let acc1 : StagedRows J := { acc with
      deviceValues := acc.deviceValues ++ [mkDeviceRow r.reportId props env] }
    match extsStage extMap r with
    | Except.error rows =>
      ({ acc1 with deviceExtValues := acc1.deviceExtValues ++ rows }, true)
    | Except.ok rows =>
      let acc2 : StagedRows J :=
        { acc1 with deviceExtValues := acc1.deviceExtValues ++ rows }
      let acc3 : StagedRows J := { acc2 with
        deviceLimitsValues := acc2.deviceLimitsValues
          ++ [{ reportId := r.reportId, limits := props.limits,
                sparseProperties := props.sparseProperties,
                subgroupProperties := props.subgroupProperties }] }
      let core := stageCore r.reportId r
      let acc4 : StagedRows J := { acc3 with
        coreFeaturesValues := acc3.coreFeaturesValues ++ core.1,
        corePropsValues := acc3.corePropsValues ++ core.2 }
      match featsStage r with
      | Except.error rows =>
        ({ acc4 with extFeaturesValues := acc4.extFeaturesValues ++ rows },
          true)
      | Except.ok rows =>
        let acc5 : StagedRows J :=
          { acc4 with extFeaturesValues := acc4.extFeaturesValues ++ rows }
        match propsStage r with
        | Except.error prows =>
          ({ acc5 with extPropsValues := acc5.extPropsValues ++ prows }, true)
        | Except.ok prows =>
          ({ acc5 with extPropsValues := acc5.extPropsValues ++ prows }, false)
  | none, _ => (acc, true)
  | some _, none => (acc, true)

/-- The per-report loop of `processBatch` over a whole batch: the staging
arrays and the number of caught errors. -/
def processBatchStage {J : Type} (extMap : List Char → Option Nat)
    (batch : List (DeviceReport J)) : StagedRows J × Nat :=
  batch.foldl
    (fun st r =>
      let step := stageReport extMap r st.1
      (step.1, st.2 + (if step.2 then 1 else 0)))
    (emptyStaged, 0)

/-- The rows a single report contributes when processed from empty staging
arrays. -/
def reportContrib {J : Type} (extMap : List Char → Option Nat)
    (r : DeviceReport J) : StagedRows J :=
  (stageReport extMap r emptyStaged).1

/-- Whether transforming a single report throws (independent of the
staging arrays). -/
def reportThrows {J : Type} (extMap : List Char → Option Nat)
    (r : DeviceReport J) : Bool :=
  (stageReport extMap r emptyStaged).2

/-- The concatenation of the per-report contributions of a batch. -/
def batchContrib {J : Type} (extMap : List Char → Option Nat) :
    List (DeviceReport J) → StagedRows J
  | [] => emptyStaged
  | r :: rest => (reportContrib extMap r).append (batchContrib extMap rest)

theorem StagedRows.append_empty {J : Type} (a : StagedRows J) :
    a.append emptyStaged = a := by
  cases a
  simp [StagedRows.append, emptyStaged]

theorem StagedRows.empty_append {J : Type} (a : StagedRows J) :
    (emptyStaged : StagedRows J).append a = a := by
  cases a
  simp [StagedRows.append, emptyStaged]

theorem StagedRows.append_assoc {J : Type} (a b c : StagedRows J) :
    (a.append b).append c = a.append (b.append c) := by
  cases a; cases b; cases c
  simp [StagedRows.append]

/-- The staging of one report only appends to the staging arrays: staging
from `acc` equals `acc` extended by the report's own contribution, and
whether the report throws does not depend on `acc`. -/
theorem stageReport_append {J : Type} (extMap : List Char → Option Nat)
    (r : DeviceReport J) (acc : StagedRows J) :
    stageReport extMap r acc
      = (acc.append (reportContrib extMap r), reportThrows extMap r) := by
  unfold reportContrib reportThrows
  cases hp : r.properties with
  | none =>
    cases acc
    simp [stageReport, hp, StagedRows.append, emptyStaged]
  | some props =>
    cases he : r.environment with
    | none =>
      cases acc
      simp [stageReport, hp, he, StagedRows.append, emptyStaged]
    | some env =>
      cases hx : extsStage extMap r with
      | error rows =>
        cases acc
        simp [stageReport, hp, he, hx, StagedRows.append, emptyStaged]
      | ok rows =>
        cases hf : featsStage r with
        | error frows =>
          cases acc
          simp [stageReport, hp, he, hx, hf, StagedRows.append, emptyStaged]
        | ok frows =>
          cases hq : propsStage r with
          | error prows =>
            cases acc
            simp [stageReport, hp, he, hx, hf, hq, StagedRows.append,
              emptyStaged]
          | ok prows =>
            cases acc
            simp [stageReport, hp, he, hx, hf, hq, StagedRows.append,
              emptyStaged]

theorem processBatchGoAux {J : Type} (extMap : List Char → Option Nat) :
    ∀ (batch : List (DeviceReport J)) (st : StagedRows J) (n : Nat),
      batch.foldl
          (fun st r =>
            (st.1.append (reportContrib extMap r),
              st.2 + (if reportThrows extMap r then 1 else 0))) (st, n)
        = (st.append (batchContrib extMap batch),
            n + (batch.filter (fun r => reportThrows extMap r)).length) := by
  intro batch
  induction batch with
  | nil =>
    intro st n
    simp [batchContrib, StagedRows.append_empty]
  | cons r rest ih =>
    intro st n
    rw [List.foldl_cons]
    show List.foldl _
        (st.append (reportContrib extMap r),
          n + (if reportThrows extMap r then 1 else 0)) rest = _
    rw [ih, StagedRows.append_assoc]
    rw [show batchContrib extMap (r :: rest)
        = (reportContrib extMap r).append (batchContrib extMap rest) from rfl]
    have hcount : n + (if reportThrows extMap r then 1 else 0)
          + (rest.filter (fun x => reportThrows extMap x)).length
        = n + ((r :: rest).filter (fun x => reportThrows extMap x)).length := by
      by_cases hthrow : reportThrows extMap r = true
      · simp [List.filter_cons, hthrow]
        omega
      · simp [List.filter_cons, hthrow]
    rw [hcount]

theorem processBatchGo {J : Type} (extMap : List Char → Option Nat)
    (batch : List (DeviceReport J)) (st : StagedRows J) (n : Nat) :
    batch.foldl
        (fun st r =>
          let step := stageReport extMap r st.1
          (step.1, st.2 + (if step.2 then 1 else 0))) (st, n)
      = (st.append (batchContrib extMap batch),
          n + (batch.filter (fun r => reportThrows extMap r)).length) := by
  have hfun : (fun (st : StagedRows J × Nat) (r : DeviceReport J) =>
      let step := stageReport extMap r st.1
      (step.1, st.2 + (if step.2 then 1 else 0)))
      = fun st r =>
        (st.1.append (reportContrib extMap r),
          st.2 + (if reportThrows extMap r then 1 else 0)) := by
    funext st r
    simp only [stageReport_append]
  rw [hfun]
  exact processBatchGoAux extMap batch st n

/-! ### Claim C6: per-report error handling of the device importer -/

/-- Claim C6 (amended): in the device importer's per-batch processor every
per-report transformation error is caught and counted — the error count is
exactly the number of throwing reports — and the staged row sets are the
concatenation, in order, of each report's own contribution, so the
transformation of the remaining reports is unaffected by an earlier
failure; however, a failing report is only partially skipped: the rows it
pushed before the throw (its contribution up to the throw point) remain in
the staged row sets. -/
theorem processBatchStage_spec {J : Type} (extMap : List Char → Option Nat)
    (batch : List (DeviceReport J)) :
    (processBatchStage extMap batch).1 = batchContrib extMap batch ∧
      (processBatchStage extMap batch).2
        = (batch.filter (fun r => reportThrows extMap r)).length := by
  unfold processBatchStage
  rw [processBatchGo]
  simp [StagedRows.empty_append]

def extMapNone : List Char → Option Nat := fun _ => none

def propsGood : ReportProps Unit :=
  { deviceName := some "GPU".data, deviceID := 1, vendorID := 2,
    deviceTypeText := none, apiVersion := 0, apiVersionText := none,
    driverVersion := 0, driverVersionText := none, limits := none,
    sparseProperties := none, subgroupProperties := none }

def envGood : ReportEnv :=
  { name := none, ostype := 0, version := none, architecture := none,
    submitter := none }

/-- A report whose transformation throws midway: properties and
environment are fine (the device row and the limits row are pushed), but
`extended.devicefeatures2` holds a nullish element, so `f.extension`
throws. -/
def reportBad : DeviceReport Unit :=
  { reportId := 7, properties := some propsGood, environment := some envGood,
    extensions := none, core11 := none, core12 := none, core13 := none,
    core14 := none,
    extended := some { devicefeatures2 := some [none],
                       deviceproperties2 := none } }

def reportGood : DeviceReport Unit :=
  { reportId := 8, properties := some propsGood, environment := some envGood,
    extensions := none, core11 := none, core12 := none, core13 := none,
    core14 := none, extended := none }

/-- Claim C6 (counterexample).  The claim states that a failing report is
skipped so that no rows derived from it remain in the staged row sets.  In
the batch `[reportBad, reportGood]` the transformation of `reportBad`
(report id 7) throws — the error count is 1 — yet its device row and its
limits row, pushed before the throw, remain staged: the staged report ids
are `[7, 8]`, not `[8]`. -/
theorem processBatch_failing_report_rows_remain :
    (processBatchStage extMapNone [reportBad, reportGood]).2 = 1 ∧
      ((processBatchStage extMapNone [reportBad, reportGood]).1.deviceValues.map
          (fun row => row.reportId)) = [7, 8] ∧
      ((processBatchStage extMapNone
          [reportBad, reportGood]).1.deviceLimitsValues.map
          (fun row => row.reportId)) = [7, 8] := by
  refine ⟨by decide, by decide, by decide⟩

/-- Witness for `upsertExtensions_spec` at a concrete input. -/
theorem upsertExtensions_spec_witness :
    (∃ newRows,
      (upsertExtensionsBatch
          [{ id := 1, name := "a", dateAdded := some "old",
             hasFeatures := false, hasProperties := false }] 2
          [{ name := "a", dateAdded := some "new",
             hasFeatures := true, hasProperties := true }]).1
        = [{ id := 1, name := "a", dateAdded := some "old",
             hasFeatures := false, hasProperties := false }] ++ newRows) ∧
    (∃ p ∈ (upsertExtensionsBatch
          [{ id := 1, name := "a", dateAdded := some "old",
             hasFeatures := false, hasProperties := false }] 2
          [{ name := "a", dateAdded := some "new",
             hasFeatures := true, hasProperties := true }]).2.2,
      p.2 = ({ name := "a", dateAdded := some "new", hasFeatures := true,
               hasProperties := true } : ExtValue).name) := by
  have h := upsertExtensions_spec
    [{ id := 1, name := "a", dateAdded := some "old",
       hasFeatures := false, hasProperties := false }] 2
    [{ name := "a", dateAdded := some "new",
       hasFeatures := true, hasProperties := true }] []
  exact ⟨h.1, h.2.2.1 _ (List.mem_singleton_self _)⟩

/-- Witness for `sanitizeString_idempotent` at a concrete input. -/
theorem sanitizeString_idempotent_witness :
    sanitizeString (some (sanitizeString
        (some (' ' :: 'a' :: (Char.ofNat 0) :: 'b' :: ' ' :: []))))
      = sanitizeString (some (' ' :: 'a' :: (Char.ofNat 0) :: 'b' :: ' ' :: [])) ∧
    isStrippedControl 'a' = false := by
  have h := sanitizeString_idempotent
    (some (' ' :: 'a' :: (Char.ofNat 0) :: 'b' :: ' ' :: []))
  refine ⟨h.1, h.2.1 'a' ?_⟩
  decide

end GpuInfo